import Mathlib

/-!
Verification of the core of the `finreview` repository: the hybrid
operations classifier (`operations_matcher.py`) and the numeric / table-row
parts of the PDF statement extractor (`pdf_processor.py`).

Shallow embedding conventions:
* Python `str` values are modelled as `List Char`; Python `None`-able values
  as `Option`.
* Python `float` arithmetic is modelled exactly over `ℚ` (the spec and the
  claims speak about real values such as 95 and 1234.56, not about binary
  rounding).
* Python dictionaries that are iterated in insertion order
  (`exact_matches`, `keyword_matches`, `pattern_matches`) are modelled as
  association lists in the same order.
* `MatchResult.details` (a heterogeneous explainability dictionary) is not
  modelled; the claims only mention `type_name`, `confidence` and `method`.
* Python's Unicode-aware `str.upper`, `str.strip` and `\s` are modelled on
  the ASCII whitespace set plus the non-breaking space, which covers every
  string the configuration files and statements use.
-/

set_option maxRecDepth 8000

/-- Conversion of a Lean string literal to the `List Char` model of Python
strings. -/
def chars (s : String) : List Char := s.toList

/-- Model of the character class Python's `str.strip()` and `\s` match:
ASCII whitespace plus the non-breaking space U+00A0. -/
def pySpace (c : Char) : Bool :=
  c = ' ' || c = '\t' || c = '\n' || c = '\r' || c = '\x0b' || c = '\x0c' || c = '\xa0'

/-- Python `str.strip()`: drop leading and trailing whitespace. -/
def stripPy (l : List Char) : List Char :=
  ((l.dropWhile pySpace).reverse.dropWhile pySpace).reverse

/-- Helper for `collapseWS`: `re.sub(r"\s+", " ", s)` replaces each maximal
run of whitespace by one space; the flag says whether we are inside a run. -/
def collapseWSAux : Bool → List Char → List Char
  | _, [] => []
  | inRun, c :: rest =>
    if pySpace c then
      if inRun then collapseWSAux true rest
      else ' ' :: collapseWSAux true rest
    else c :: collapseWSAux false rest

/-- Model of `re.sub(r"\s+", " ", s)`. -/
def collapseWS (l : List Char) : List Char := collapseWSAux false l

/-- Python `str.upper()` (ASCII model). -/
def upperPy (l : List Char) : List Char := l.map Char.toUpper

/-- Whether `l` starts with `p` (`list.startswith` style helper for the
substring test). -/
def startsWithL : List Char → List Char → Bool
  | _, [] => true
  | [], _ :: _ => false
  | a :: as, b :: bs => a = b && startsWithL as bs

/-- Python's substring test `needle in hay` for strings. -/
def containsSubstr (hay needle : List Char) : Bool :=
  match hay with
  | [] => needle.isEmpty
  | _ :: rest => startsWithL hay needle || containsSubstr rest needle

/-- `OperationsMatcher._normalize_description` (operations_matcher.py:58-67):
empty guard, uppercase, strip, collapse whitespace runs, strip again. -/
def normalizeDescription (description : List Char) : List Char :=
  if description = [] then []
  else stripPy (collapseWS (stripPy (upperPy description)))

/-- The `method` field of a `MatchResult`. -/
inductive MatchMethod where
  | exact
  | fuzzy
  | keyword
  | pattern
deriving DecidableEq, Repr

/-- `MatchResult` (operations_matcher.py:18-24), without the `details`
explainability dictionary (see the module comment). -/
structure MatchResult where
  type_name : List Char
  confidence : ℚ
  method : MatchMethod
deriving DecidableEq, Repr

/-- The `fuzzy_matching` configuration section. `max_candidates` is read by
the source (operations_matcher.py:120) but never used afterwards; it is kept
for fidelity. -/
structure FuzzyConfig where
  min_similarity : ℚ
  max_candidates : Nat
deriving DecidableEq, Repr

/-- One entry of `keyword_matches`: `{keywords, weight, type}` where
`type_name` models `config.get('type', category)` already resolved. -/
structure KeywordGroup where
  keywords : List (List Char)
  weight : ℚ
  type_name : List Char
deriving DecidableEq, Repr

/-- One entry of `pattern_matches`: `{patterns, weight, type}` with
`type_name` modelling `config.get('type', category)` already resolved. -/
structure PatternGroup where
  patterns : List (List Char)
  weight : ℚ
  type_name : List Char
deriving DecidableEq, Repr

/-- The loaded YAML configuration of `OperationsMatcher`, with the required
`confidence_thresholds` and `learning` keys flattened into fields.
Association lists keep the insertion order in which Python iterates the
dictionaries. -/
structure MatcherConfig where
  exact_matches : List (List Char × List Char)
  fuzzy_matching : FuzzyConfig
  keyword_matches : List (List Char × KeywordGroup)
  pattern_matches : List (List Char × PatternGroup)
  fuzzy_match_auto : ℚ
  keyword_match_auto : ℚ
  pattern_match_auto : ℚ
  track_success : Bool
  min_confidence_for_learning : ℚ
  max_learned_patterns : Nat
deriving DecidableEq, Repr

/-- First loop of `exact_match` (operations_matcher.py:80-90): the first
configured pattern whose normalized form equals the normalized description,
confidence 100. -/
def findEqMatch (nd : List Char) : List (List Char × List Char) → Option MatchResult
  | [] => none
  | (pat, ty) :: rest =>
    if normalizeDescription pat = nd then some ⟨ty, 100, .exact⟩
    else findEqMatch nd rest

/-- Second loop of `exact_match` (operations_matcher.py:93-103): the first
configured pattern containing, or contained in, the normalized description,
confidence 95. -/
def findSubMatch (nd : List Char) : List (List Char × List Char) → Option MatchResult
  | [] => none
  | (pat, ty) :: rest =>
    let np := normalizeDescription pat
    if containsSubstr nd np || containsSubstr np nd then some ⟨ty, 95, .exact⟩
    else findSubMatch nd rest

/-- `exact_match` on an already-normalized description (the computation the
cache stores, operations_matcher.py:69-107 minus the cache bookkeeping). -/
def exactMatchCore (cfg : MatcherConfig) (nd : List Char) : Option MatchResult :=
  match findEqMatch nd cfg.exact_matches with
  | some r => some r
  | none => findSubMatch nd cfg.exact_matches

/-- `OperationsMatcher.exact_match`, cache-free form (the stateful, cached
form is `exactMatchS` below). -/
def exactMatch (cfg : MatcherConfig) (description : List Char) : Option MatchResult :=
  exactMatchCore cfg (normalizeDescription description)

/-- Python's two-argument `min` (returns the first argument on ties). -/
def pyMin (a b : ℚ) : ℚ := if a ≤ b then a else b

/-- Keywords of a group that occur in the normalized description
(`keyword.upper() in normalized_desc`, operations_matcher.py:170-173). -/
def matchedKeywords (g : KeywordGroup) (nd : List Char) : List (List Char) :=
  g.keywords.filter fun k => containsSubstr nd (upperPy k)

/-- The keyword-layer score of one group
(`min(weight + len(matched)*5, 95)`, operations_matcher.py:177). -/
def keywordScore (g : KeywordGroup) (nd : List Char) : ℚ :=
  pyMin (g.weight + 5 * (matchedKeywords g nd).length) 95

/-- The best-candidate loop of `keyword_match`
(operations_matcher.py:164-192): a group with at least one matched keyword
replaces the running best exactly when its score is strictly greater. -/
def keywordMatchAux (nd : List Char) :
    List (List Char × KeywordGroup) → Option MatchResult → ℚ → Option MatchResult
  | [], best, _ => best
  | (_, g) :: rest, best, bestScore =>
    if (matchedKeywords g nd).length ≠ 0 ∧ bestScore < keywordScore g nd then
      keywordMatchAux nd rest (some ⟨g.type_name, keywordScore g nd, .keyword⟩) (keywordScore g nd)
    else
      keywordMatchAux nd rest best bestScore

/-- `OperationsMatcher.keyword_match` (operations_matcher.py:156-193). -/
def keywordMatch (cfg : MatcherConfig) (description : List Char) : Option MatchResult :=
  keywordMatchAux (normalizeDescription description) cfg.keyword_matches none 0

/-- The `re` module is external to the repository, so the pattern layer is
embedded relative to a regex oracle: `ro pat text = none` models `re.search`
raising `re.error` on the invalid pattern `pat`, `some b` models a
successful case-insensitive search returning a match (`true`) or not
(`false`). -/
def RegexOracle : Type := List Char → List Char → Option Bool

/-- Patterns of a group that compile and match the normalized description
(operations_matcher.py:208-214; an invalid pattern — oracle `none` — is
skipped by the `except re.error: continue`). -/
def matchedPatterns (ro : RegexOracle) (g : PatternGroup) (nd : List Char) : List (List Char) :=
  g.patterns.filter fun p => ro p nd = some true

/-- The pattern-layer score of one group
(`min(weight + len(matched)*3, 90)`, operations_matcher.py:218). -/
def patternScore (ro : RegexOracle) (g : PatternGroup) (nd : List Char) : ℚ :=
  pyMin (g.weight + 3 * (matchedPatterns ro g nd).length) 90

/-- The best-candidate loop of `pattern_match`
(operations_matcher.py:203-232). -/
def patternMatchAux (ro : RegexOracle) (nd : List Char) :
    List (List Char × PatternGroup) → Option MatchResult → ℚ → Option MatchResult
  | [], best, _ => best
  | (_, g) :: rest, best, bestScore =>
    if (matchedPatterns ro g nd).length ≠ 0 ∧ bestScore < patternScore ro g nd then
      patternMatchAux ro nd rest (some ⟨g.type_name, patternScore ro g nd, .pattern⟩)
        (patternScore ro g nd)
    else
      patternMatchAux ro nd rest best bestScore

/-- `OperationsMatcher.pattern_match` (operations_matcher.py:195-234). -/
def patternMatch (ro : RegexOracle) (cfg : MatcherConfig) (description : List Char) :
    Option MatchResult :=
  patternMatchAux ro (normalizeDescription description) cfg.pattern_matches none 0

/-- Indices of the occurrences of `c` in `b`, ascending — difflib's `b2j`
chain map for one query character (no junk: autojunk only activates on
strings of 200+ characters, far beyond any configured pattern). -/
def b2jList (b : List Char) (c : Char) : List Nat :=
  (List.range b.length).filter fun j => b.get? j = some c

/-- Lookup in the `j2len` row of `find_longest_match` (missing key = 0). -/
def j2lenGet (row : List (Nat × Nat)) (k : Nat) : Nat :=
  match row.find? (fun p => p.1 = k) with
  | some p => p.2
  | none => 0

/-- The inner `for j in b2j[a[i]]` loop of difflib's `find_longest_match`:
skips `j < blo`, breaks at `j ≥ bhi`, extends the diagonal run ending at
`(i, j)` and keeps the first strictly longer run as the best block.
Returns the new `j2len` row and the updated best `(besti, bestj, bestsize)`. -/
def flmInner (j2len : List (Nat × Nat)) (i : Nat) (blo bhi : Nat) :
    List Nat → List (Nat × Nat) → Nat × Nat × Nat → List (Nat × Nat) × (Nat × Nat × Nat)
  | [], acc, best => (acc, best)
  | j :: rest, acc, best =>
    if j < blo then flmInner j2len i blo bhi rest acc best
    else if bhi ≤ j then (acc, best)
    else
      let k := if j = 0 then 1 else j2lenGet j2len (j - 1) + 1
      let best' := if best.2.2 < k then (i + 1 - k, j + 1 - k, k) else best
      flmInner j2len i blo bhi rest ((j, k) :: acc) best'

/-- The outer `for i in range(alo, ahi)` loop of `find_longest_match`,
driven by the fuel `ahi - i`. -/
def flmRows (a b : List Char) (blo bhi : Nat) :
    Nat → Nat → List (Nat × Nat) → Nat × Nat × Nat → Nat × Nat × Nat
  | _, 0, _, best => best
  | i, fuel + 1, j2len, best =>
    let c := a.getD i ' '
    let (row, best') := flmInner j2len i blo bhi (b2jList b c) [] best
    flmRows a b blo bhi (i + 1) fuel row best'

/-- The first post-loop extension of `find_longest_match` (grow the block to
the left over equal, non-junk characters; there is no junk here). Fuel-driven
(`besti` strictly decreases). -/
def flmExtendLeft (a b : List Char) (alo blo : Nat) :
    Nat → Nat × Nat × Nat → Nat × Nat × Nat
  | 0, best => best
  | fuel + 1, (besti, bestj, bestsize) =>
    if alo < besti ∧ blo < bestj ∧ a.get? (besti - 1) = b.get? (bestj - 1) then
      flmExtendLeft a b alo blo fuel (besti - 1, bestj - 1, bestsize + 1)
    else (besti, bestj, bestsize)

/-- The second post-loop extension of `find_longest_match` (grow the block to
the right over equal, non-junk characters). -/
def flmExtendRight (a b : List Char) (ahi bhi : Nat) :
    Nat → Nat × Nat × Nat → Nat × Nat × Nat
  | 0, best => best
  | fuel + 1, (besti, bestj, bestsize) =>
    if besti + bestsize < ahi ∧ bestj + bestsize < bhi ∧
        a.get? (besti + bestsize) = b.get? (bestj + bestsize) then
      flmExtendRight a b ahi bhi fuel (besti, bestj, bestsize + 1)
    else (besti, bestj, bestsize)

/-- difflib `SequenceMatcher.find_longest_match` on the window
`a[alo:ahi] × b[blo:bhi]`, junk-free (see `b2jList`). -/
def findLongestMatch (a b : List Char) (alo ahi blo bhi : Nat) : Nat × Nat × Nat :=
  let best := flmRows a b blo bhi alo (ahi - alo) [] (alo, blo, 0)
  let best := flmExtendLeft a b alo blo best.1 best
  flmExtendRight a b ahi bhi (ahi - best.1) best

/-- Total size of the matching blocks of `get_matching_blocks` on a window:
the sum `ratio()` needs. The queue of `get_matching_blocks` is unfolded into
the recursion tree (the sum does not depend on the visit order). Each
recursive window is strictly smaller than `ahi - alo`, so fuel
`a.length + 1` at the root never runs out. -/
def matchingSize (a b : List Char) : Nat → Nat → Nat → Nat → Nat → Nat
  | 0, _, _, _, _ => 0
  | fuel + 1, alo, ahi, blo, bhi =>
    let (i, j, k) := findLongestMatch a b alo ahi blo bhi
    if k = 0 then 0
    else
      k + (if alo < i ∧ blo < j then matchingSize a b fuel alo i blo j else 0)
        + (if i + k < ahi ∧ j + k < bhi then matchingSize a b fuel (i + k) ahi (j + k) bhi else 0)

/-- `sum(triple[-1] for triple in get_matching_blocks())`. -/
def matchesTotal (a b : List Char) : Nat :=
  matchingSize a b (a.length + 1) 0 a.length 0 b.length

/-- `OperationsMatcher._calculate_similarity` (operations_matcher.py:145-154):
0 for an empty argument, else `SequenceMatcher(None, str1, str2).ratio()`
(`2*M/T`) scaled to 0–100. Built with `mkRat` so that concrete values
kernel-evaluate; `mkRat (200*M) T = 2*M/T*100` over `ℚ`. -/
def calculateSimilarity (str1 str2 : List Char) : ℚ :=
  if str1 = [] ∨ str2 = [] then 0
  else mkRat (200 * matchesTotal str1 str2) (str1.length + str2.length)

/-- The best-candidate loop of `fuzzy_match` (operations_matcher.py:126-140):
the description is compared with every **raw** `exact_matches` pattern; a
candidate replaces the best exactly when its similarity is strictly greater
than the best so far and at least `min_similarity`. -/
def fuzzyMatchAux (nd : List Char) (minSim : ℚ) :
    List (List Char × List Char) → Option MatchResult → ℚ → Option MatchResult
  | [], best, _ => best
  | (pat, ty) :: rest, best, bestSim =>
    let sim := calculateSimilarity nd pat
    if bestSim < sim ∧ minSim ≤ sim then
      fuzzyMatchAux nd minSim rest (some ⟨ty, sim, .fuzzy⟩) sim
    else
      fuzzyMatchAux nd minSim rest best bestSim

/-- `fuzzy_match` on an already-normalized description (the computation the
fuzzy cache stores, operations_matcher.py:109-143 minus the cache
bookkeeping). -/
def fuzzyMatchCore (cfg : MatcherConfig) (nd : List Char) : Option MatchResult :=
  fuzzyMatchAux nd cfg.fuzzy_matching.min_similarity cfg.exact_matches none 0

/-- `OperationsMatcher.fuzzy_match`, cache-free form. -/
def fuzzyMatch (cfg : MatcherConfig) (description : List Char) : Option MatchResult :=
  fuzzyMatchCore cfg (normalizeDescription description)

/-- `if result and result.confidence >= threshold` — the auto-accept test of
`classify_operation` steps 2–4. -/
def autoOk (r : Option MatchResult) (threshold : ℚ) : Bool :=
  match r with
  | some m => threshold ≤ m.confidence
  | none => false

/-- Python's `max(candidates, key=lambda x: x.confidence)` on a non-empty
list: a later candidate replaces the running maximum only when strictly
greater, so the first of several tied maxima wins. -/
def pyMaxByConfidence (c : MatchResult) (cs : List MatchResult) : MatchResult :=
  cs.foldl (fun acc x => if acc.confidence < x.confidence then x else acc) c

/-- The low-confidence collection phase of `classify_operation`
(operations_matcher.py:261-279): gather whichever of the three layer results
exist, in the order fuzzy, keyword, pattern, and take the first maximum. -/
def bestCandidate (fz kw pt : Option MatchResult) : Option MatchResult :=
  match fz.toList ++ kw.toList ++ pt.toList with
  | [] => none
  | c :: cs => some (pyMaxByConfidence c cs)

/-- `OperationsMatcher.classify_operation` (operations_matcher.py:236-279),
cache-free form: empty guard, exact layer, the three auto-accept checks,
then the best low-confidence candidate. The re-invocations of the
layers in the collection phase return the same values because the layers
are deterministic (the cached, stateful form is `classifyOperationS`). -/
def classifyOperation (ro : RegexOracle) (cfg : MatcherConfig) (description : List Char) :
    Option MatchResult :=
  if description = [] then none
  else
    match exactMatch cfg description with
    | some r => some r
    | none =>
      let fz := fuzzyMatch cfg description
      if autoOk fz cfg.fuzzy_match_auto then fz
      else
        let kw := keywordMatch cfg description
        if autoOk kw cfg.keyword_match_auto then kw
        else
          let pt := patternMatch ro cfg description
          if autoOk pt cfg.pattern_match_auto then pt
          else bestCandidate fz kw pt

/-- `ClassificationSuggestion` (operations_matcher.py:27-35), without the
`details` dictionary. -/
structure ClassificationSuggestion where
  operation_id : Nat
  type_name : List Char
  confidence : ℚ
  method : MatchMethod
  should_auto_assign : Bool
deriving DecidableEq, Repr

/-- The auto-assign flag of `get_classification_suggestions`
(operations_matcher.py:290-300): exact always, the other methods exactly
when the confidence reaches their own threshold. -/
def shouldAutoAssign (cfg : MatcherConfig) (r : MatchResult) : Bool :=
  match r.method with
  | .exact => true
  | .fuzzy => cfg.fuzzy_match_auto ≤ r.confidence
  | .keyword => cfg.keyword_match_auto ≤ r.confidence
  | .pattern => cfg.pattern_match_auto ≤ r.confidence

/-- `OperationsMatcher.get_classification_suggestions`
(operations_matcher.py:281-312): classify each `(id, description)` pair in
input order and keep the classified ones, flagged by `shouldAutoAssign`. -/
def getClassificationSuggestions (ro : RegexOracle) (cfg : MatcherConfig)
    (operations : List (Nat × List Char)) : List ClassificationSuggestion :=
  operations.filterMap fun op =>
    match classifyOperation ro cfg op.2 with
    | some r => some ⟨op.1, r.type_name, r.confidence, r.method, shouldAutoAssign cfg r⟩
    | none => none

/-- One learned pattern `{'pattern', 'confidence', 'count'}`
(operations_matcher.py:325-329). -/
structure LearnedPattern where
  pattern : List Char
  confidence : ℚ
  count : Nat
deriving DecidableEq, Repr

/-- The sort key order of `learn_from_correction`
(`key=lambda x: (x['confidence'], x['count']), reverse=True`): `a` may stand
before `b` in the descending order when its key is not smaller. -/
def lpKeyGE (a b : LearnedPattern) : Prop :=
  b.confidence < a.confidence ∨ (a.confidence = b.confidence ∧ b.count ≤ a.count)

instance (a b : LearnedPattern) : Decidable (lpKeyGE a b) := by
  unfold lpKeyGE; infer_instance

/-- Stable insertion into a list already sorted descending by `lpKeyGE`: the
new element goes before the first strictly smaller entry, i.e. after every
entry with an equal or greater key, which matches the stability of Python's
`list.sort`. -/
def lpInsert (x : LearnedPattern) : List LearnedPattern → List LearnedPattern
  | [] => [x]
  | y :: ys => if lpKeyGE y x then y :: lpInsert x ys else x :: y :: ys

/-- Stable descending sort by `(confidence, count)` — the model of
`list.sort(key=..., reverse=True)`. -/
def lpSortDesc (l : List LearnedPattern) : List LearnedPattern :=
  l.foldr lpInsert []

/-- The mutable state of an `OperationsMatcher` instance: the two result
caches (Python dicts keyed by the normalized description; modelled as
association lists where the most recent insertion stands first) and the
learned-pattern table (a `defaultdict(list)` keyed by category). -/
structure MatcherState where
  exactCache : List (List Char × Option MatchResult)
  fuzzyCache : List (List Char × Option MatchResult)
  learned : List (List Char × List LearnedPattern)
deriving DecidableEq, Repr

/-- The freshly constructed state (operations_matcher.py:45-47). -/
def initialState : MatcherState := ⟨[], [], []⟩

/-- Dictionary lookup in a cache association list. -/
def cacheGet (cache : List (List Char × Option MatchResult)) (k : List Char) :
    Option (Option MatchResult) :=
  match cache.find? (fun p => p.1 = k) with
  | some p => some p.2
  | none => none

/-- `defaultdict(list)` read access for the learned-pattern table. -/
def learnedGet (tbl : List (List Char × List LearnedPattern)) (k : List Char) :
    List LearnedPattern :=
  match tbl.find? (fun p => p.1 = k) with
  | some p => p.2
  | none => []

/-- `defaultdict` write access: replace (or create) the bucket of `k`. -/
def learnedSet (tbl : List (List Char × List LearnedPattern)) (k : List Char)
    (v : List LearnedPattern) : List (List Char × List LearnedPattern) :=
  (k, v) :: tbl.filter (fun p => p.1 ≠ k)

/-- `OperationsMatcher.learn_from_correction` (operations_matcher.py:314-338):
no-op when learning is not tracked or the confidence is below
`min_confidence_for_learning`; otherwise append the normalized description
with count 1 and, when the bucket now exceeds `max_learned_patterns`, keep
the first `max_learned_patterns` entries of the stable descending sort by
`(confidence, count)`. -/
def learnFromCorrection (cfg : MatcherConfig) (st : MatcherState)
    (description correct_type : List Char) (user_confidence : ℚ) : MatcherState :=
  if cfg.track_success = false then st
  else if user_confidence < cfg.min_confidence_for_learning then st
  else
    let nd := normalizeDescription description
    let bucket := learnedGet st.learned correct_type ++ [⟨nd, user_confidence, 1⟩]
    let bucket :=
      if cfg.max_learned_patterns < bucket.length then
        (lpSortDesc bucket).take cfg.max_learned_patterns
      else bucket
    { st with learned := learnedSet st.learned correct_type bucket }

/-- `OperationsMatcher.clear_caches` (operations_matcher.py:344-347). -/
def clearCaches (st : MatcherState) : MatcherState :=
  { st with exactCache := [], fuzzyCache := [] }

/-- `OperationsMatcher.exact_match` with its cache (operations_matcher.py:
69-107): serve a hit from the cache, otherwise compute and store. -/
def exactMatchS (cfg : MatcherConfig) (st : MatcherState) (description : List Char) :
    Option MatchResult × MatcherState :=
  let nd := normalizeDescription description
  match cacheGet st.exactCache nd with
  | some v => (v, st)
  | none =>
    let r := exactMatchCore cfg nd
    (r, { st with exactCache := (nd, r) :: st.exactCache })

/-- `OperationsMatcher.fuzzy_match` with its cache (operations_matcher.py:
109-143). -/
def fuzzyMatchS (cfg : MatcherConfig) (st : MatcherState) (description : List Char) :
    Option MatchResult × MatcherState :=
  let nd := normalizeDescription description
  match cacheGet st.fuzzyCache nd with
  | some v => (v, st)
  | none =>
    let r := fuzzyMatchCore cfg nd
    (r, { st with fuzzyCache := (nd, r) :: st.fuzzyCache })

/-- `OperationsMatcher.classify_operation` with the caches threaded through,
mirroring the source line by line: the collection phase genuinely calls
`fuzzy_match` a second time (operations_matcher.py:264). -/
def classifyOperationS (ro : RegexOracle) (cfg : MatcherConfig) (st : MatcherState)
    (description : List Char) : Option MatchResult × MatcherState :=
  if description = [] then (none, st)
  else
    match exactMatchS cfg st description with
    | (some r, st1) => (some r, st1)
    | (none, st1) =>
      let (fz, st2) := fuzzyMatchS cfg st1 description
      if autoOk fz cfg.fuzzy_match_auto then (fz, st2)
      else
        let kw := keywordMatch cfg description
        if autoOk kw cfg.keyword_match_auto then (kw, st2)
        else
          let pt := patternMatch ro cfg description
          if autoOk pt cfg.pattern_match_auto then (pt, st2)
          else
            let (fz2, st3) := fuzzyMatchS cfg st2 description
            let kw2 := keywordMatch cfg description
            let pt2 := patternMatch ro cfg description
            (bestCandidate fz2 kw2 pt2, st3)

/-- The cache invariant: every stored entry is the value the cache-free
computation gives for its key. A fresh matcher and `clear_caches` satisfy it
trivially, and `classifyOperationS` preserves it. -/
def CacheOK (cfg : MatcherConfig) (st : MatcherState) : Prop :=
  (∀ p ∈ st.exactCache, p.2 = exactMatchCore cfg p.1) ∧
  (∀ p ∈ st.fuzzyCache, p.2 = fuzzyMatchCore cfg p.1)

/-- The numeric value of a digit string. -/
def digitsToNat (ds : List Char) : Nat :=
  ds.foldl (fun acc d => 10 * acc + (d.toNat - 48)) 0

/-- The optional exponent suffix of a Python `float()` literal: `[]` means
exponent 0; `e`/`E`, an optional sign and at least one digit (and nothing
after) give the signed exponent; anything else fails the parse. -/
def pyFloatExpVal : List Char → Option Int
  | [] => some 0
  | c :: r =>
    if c = 'e' ∨ c = 'E' then
      let sr : Bool × List Char :=
        match r with
        | '+' :: r2 => (false, r2)
        | '-' :: r2 => (true, r2)
        | r2 => (false, r2)
      let ds := sr.2.takeWhile Char.isDigit
      if ds = [] ∨ sr.2.dropWhile Char.isDigit ≠ [] then none
      else some (if sr.1 then -(digitsToNat ds : Int) else (digitsToNat ds : Int))
    else none

/-- Model of Python's `float(text)` on decimal literals: optional surrounding
whitespace, optional sign, digits with an optional point (at least one digit
overall) and an optional exponent; `none` models the `ValueError` branch.
The value `sign * (int.frac) * 10^e` is assembled as one `mkRat` so that
concrete inputs kernel-evaluate. The special values `inf`/`nan` and
digit-group underscores, which no string of this pipeline produces, are not
modelled. -/
def pyFloat (s : List Char) : Option ℚ :=
  let t := stripPy s
  let st : Int × List Char :=
    match t with
    | '+' :: r => (1, r)
    | '-' :: r => (-1, r)
    | r => (1, r)
  let intPart := st.2.takeWhile Char.isDigit
  let rest1 := st.2.dropWhile Char.isDigit
  let mant : Option (Nat × Nat × List Char) :=
    match rest1 with
    | '.' :: r2 =>
      let fracPart := r2.takeWhile Char.isDigit
      if intPart = [] ∧ fracPart = [] then none
      else some (digitsToNat intPart * 10 ^ fracPart.length + digitsToNat fracPart,
        fracPart.length, r2.dropWhile Char.isDigit)
    | _ => if intPart = [] then none else some (digitsToNat intPart, 0, rest1)
  match mant with
  | none => none
  | some (num, fracLen, rest2) =>
    match pyFloatExpVal rest2 with
    | none => none
    | some e => some (mkRat (st.1 * num * 10 ^ e.toNat) (10 ^ fracLen * 10 ^ (-e).toNat))

/-- Python `str.rfind` for one character: highest index, `-1` when absent. -/
def rfindIdx (l : List Char) (c : Char) : Int :=
  match l.reverse.findIdx? (fun x => x = c) with
  | some k => (l.length : Int) - 1 - k
  | none => -1

/-- `_normalize_number` (pdf_processor.py:49-72): strip, empty guard, drop
non-breaking spaces and spaces, then — when both separators appear — keep
the one found later as the decimal point, treat a lone comma as the decimal
separator, and hand the text to `float()`, absorbing the parse failure. -/
def normalizeNumber (value : List Char) : Option ℚ :=
  let text := stripPy value
  if text = [] then none
  else
    let text := text.filter fun c => c ≠ '\xa0' ∧ c ≠ ' '
    let text :=
      if (',' ∈ text) ∧ ('.' ∈ text) then
        if rfindIdx text '.' < rfindIdx text ',' then
          (text.filter (· ≠ '.')).map fun c => if c = ',' then '.' else c
        else text.filter (· ≠ ',')
      else if ',' ∈ text then
        (text.filter (· ≠ '.')).map fun c => if c = ',' then '.' else c
      else text
    pyFloat text

/-- The number-normalization contract in the spec's own words (§4.1): pick
the decimal separator — the later of `.` and `,` when both appear, a lone
`,` otherwise, none when only `.` or neither appears — then discard the
other separator, rename the decimal separator to `.`, and parse. Proved
equal to `normalizeNumber` in `normalizeNumber_refines_spec`. -/
def normalizeNumberSpec (value : List Char) : Option ℚ :=
  let text := stripPy value
  if text = [] then none
  else
    let text := text.filter fun c => c ≠ '\xa0' ∧ c ≠ ' '
    let dec : Option Char :=
      if (',' ∈ text) ∧ ('.' ∈ text) then
        some (if rfindIdx text '.' < rfindIdx text ',' then ',' else '.')
      else if ',' ∈ text then some ','
      else none
    match dec with
    | some d =>
      let other : Char := if d = ',' then '.' else ','
      pyFloat ((text.filter (· ≠ other)).map fun c => if c = d then '.' else c)
    | none => pyFloat text

/-- The character class `[\.,\s ]` of the thousands-group separator in
`_NUM_PATTERN` (pdf_processor.py:37). -/
def isGroupSep (c : Char) : Bool := c = '.' || c = ',' || pySpace c

/-- The trailing `[\.,]\d{2}` of the amount regexes. -/
def decPart : List Char → Option Nat
  | c1 :: c2 :: c3 :: _ =>
    if (c1 = '.' ∨ c1 = ',') ∧ c2.isDigit ∧ c3.isDigit then some 3 else none
  | _ => none

/-- The tail after the digit groups: `_NUM_WITH_DECIMALS_PATTERN`
(pdf_processor.py:38) requires `[\.,]\d{2}`; `_NUM_PATTERN` makes it
optional, greedily. -/
def numTail (needDec : Bool) (l : List Char) : Option Nat :=
  if needDec then decPart l
  else
    match decPart l with
    | some n => some n
    | none => some 0

/-- The greedy `(?:[\.,\s ]\d{3})*` with full backtracking: consume as
many separator-plus-three-digit groups as allow the tail to match, then the
tail. -/
def groupsTail (needDec : Bool) : List Char → Option Nat
  | c1 :: c2 :: c3 :: c4 :: rest =>
    if isGroupSep c1 ∧ c2.isDigit ∧ c3.isDigit ∧ c4.isDigit then
      match groupsTail needDec rest with
      | some n => some (n + 4)
      | none => numTail needDec (c1 :: c2 :: c3 :: c4 :: rest)
    else numTail needDec (c1 :: c2 :: c3 :: c4 :: rest)
  | l => numTail needDec l

/-- `\d{3}` then the rest of the pattern. -/
def digits3 (needDec : Bool) : List Char → Option Nat
  | d1 :: d2 :: d3 :: rest =>
    if d1.isDigit ∧ d2.isDigit ∧ d3.isDigit then (groupsTail needDec rest).map (· + 3)
    else none
  | _ => none

/-- `\d{2}` then the rest of the pattern. -/
def digits2 (needDec : Bool) : List Char → Option Nat
  | d1 :: d2 :: rest =>
    if d1.isDigit ∧ d2.isDigit then (groupsTail needDec rest).map (· + 2) else none
  | _ => none

/-- `\d{1}` then the rest of the pattern. -/
def digits1 (needDec : Bool) : List Char → Option Nat
  | d1 :: rest => if d1.isDigit then (groupsTail needDec rest).map (· + 1) else none
  | [] => none

/-- The greedy `\d{1,3}` with backtracking, then groups and tail. -/
def matchNumBody (needDec : Bool) (l : List Char) : Option Nat :=
  match digits3 needDec l with
  | some n => some n
  | none =>
    match digits2 needDec l with
    | some n => some n
    | none => digits1 needDec l

/-- A whole-pattern match attempt at one position: `[-+]?` then the body.
Returns the length of the greedy match. -/
def matchNumFrom (needDec : Bool) (l : List Char) : Option Nat :=
  match l with
  | c :: rest =>
    if c = '-' ∨ c = '+' then (matchNumBody needDec rest).map (· + 1)
    else matchNumBody needDec l
  | [] => none

/-- `re.search` for the two amount patterns: the leftmost position with a
match wins, greedily matched. -/
def searchNum (needDec : Bool) : List Char → Option (List Char)
  | [] => none
  | c :: rest =>
    match matchNumFrom needDec (c :: rest) with
    | some n => some ((c :: rest).take n)
    | none => searchNum needDec rest

/-- `_parse_amount` (pdf_processor.py:101-111): `None`/empty guard, first
numeric substring with two decimals, falling back to any numeric substring,
normalized by `normalizeNumber`. -/
def parseAmount (text : Option (List Char)) : Option ℚ :=
  match text with
  | none => none
  | some s =>
    if s = [] then none
    else
      match searchNum true s with
      | some m => normalizeNumber m
      | none =>
        match searchNum false s with
        | some m => normalizeNumber m
        | none => none

/-- The `Operation` dataclass of pdf_processor.py:41-46 (the spec's
`TransactionRecord`). -/
structure Operation where
  transaction_date : Option (List Char)
  processed_date : Option (List Char)
  description : Option (List Char)
  amount_lei : Option ℚ
deriving DecidableEq, Repr

/-- The heuristically detected column roles (`col_map`,
pdf_processor.py:154). -/
structure ColMap where
  date : Option Nat
  processed : Option Nat
  description : Option Nat
  amount : Option Nat
deriving DecidableEq, Repr

/-- `row[i] if idx is not None and idx < len(row) else None`
(pdf_processor.py:187-190); a cell itself may be `None`. -/
def getCell (row : List (Option (List Char))) (idx : Option Nat) : Option (List Char) :=
  match idx with
  | some i => if i < row.length then row.getD i none else none
  | none => none

/-- The inner `normalize_cell` (pdf_processor.py:195-200): collapse embedded
newlines to spaces and strip. -/
def normalizeCell (c : Option (List Char)) : Option (List Char) :=
  match c with
  | none => none
  | some s => some (stripPy (s.map fun ch => if ch = '\n' then ' ' else ch))

/-- `any(cell for cell in row)` (pdf_processor.py:184): some cell is neither
`None` nor the empty string. -/
def rowHasTruthyCell (row : List (Option (List Char))) : Bool :=
  row.any fun c => c.getD [] ≠ []

/-- One iteration of the data-row loop of `extract_card_operations`
(pdf_processor.py:183-216): skip all-falsy rows, read the role cells
bounds-checked, normalize the description and parse the amount, and emit an
`Operation` exactly when the description is truthy and the amount parsed. -/
def processRow (cm : ColMap) (row : List (Option (List Char))) : Option Operation :=
  if rowHasTruthyCell row = false then none
  else
    let description := normalizeCell (getCell row cm.description)
    let amount := parseAmount (getCell row cm.amount)
    let transaction_date := normalizeCell (getCell row cm.date)
    let processed_date := normalizeCell (getCell row cm.processed)
    match description, amount with
    | some d, some a =>
      if d ≠ [] then some ⟨transaction_date, processed_date, some d, some a⟩ else none
    | _, _ => none

/-- The whole data-row loop over `tbl[1:]` (the caller passes the rows after
the header): dropped rows leave no trace and extraction continues. -/
def processTableRows (cm : ColMap) (rows : List (List (Option (List Char)))) : List Operation :=
  rows.filterMap (processRow cm)

/-- The confidence an accumulator state of the best-candidate loops stands
for: the best result's confidence, or the running best score when no result
is held yet. -/
def resConf (res : Option MatchResult) (bs : ℚ) : ℚ :=
  match res with
  | some m => m.confidence
  | none => bs

/-- A regex oracle under which every pattern is invalid — enough for
configurations whose `pattern_matches` section is empty. -/
def roNone : RegexOracle := fun _ _ => none

/-- A concrete deterministic regex oracle for witnesses: the pattern `BAD(`
is invalid (`re.error`), every other pattern matches by literal substring
search. -/
def roSub : RegexOracle := fun pat text =>
  if pat = chars "BAD(" then none else some (containsSubstr text pat)

/-- A neutral configuration with the documented default thresholds; the
concrete configurations below override single sections. -/
def baseCfg : MatcherConfig :=
  { exact_matches := []
  , fuzzy_matching := ⟨85, 5⟩
  , keyword_matches := []
  , pattern_matches := []
  , fuzzy_match_auto := 85
  , keyword_match_auto := 75
  , pattern_match_auto := 70
  , track_success := false
  , min_confidence_for_learning := 80
  , max_learned_patterns := 50 }

/-- C1 counterexample configuration: one exact-match pattern whose
normalized form is empty (a whitespace-only pattern key). -/
def cfgC1ce : MatcherConfig :=
  { baseCfg with exact_matches := [(chars " ", chars "T1")] }

/-- C1 witness configuration: an exact pattern and a keyword group that
would also match the witness description. -/
def cfgC1w : MatcherConfig :=
  { baseCfg with
    exact_matches := [(chars "AGROBAZAR", chars "Food")]
  , keyword_matches := [(chars "agri", ⟨[chars "AGRO"], 90, chars "Agro"⟩)] }

/-- C2 counterexample configuration: the description `ABCD` fuzzy-matches
`ABCE` at 75 (below the auto threshold 80) while the keyword layer
auto-accepts at the lower confidence 70. -/
def cfgC2ce : MatcherConfig :=
  { baseCfg with
    exact_matches := [(chars "ABCE", chars "T1")]
  , fuzzy_matching := ⟨70, 5⟩
  , fuzzy_match_auto := 80
  , keyword_matches := [(chars "g", ⟨[chars "ABCD"], 65, chars "T2"⟩)]
  , keyword_match_auto := 70 }

/-- C2 witness configuration: fuzzy similarity 75 equal to the auto
threshold. -/
def cfgC2w : MatcherConfig :=
  { baseCfg with
    exact_matches := [(chars "ABCE", chars "T1")]
  , fuzzy_matching := ⟨70, 5⟩
  , fuzzy_match_auto := 75 }

/-- C2 witness configuration for the below-threshold half: threshold one
tick above the candidate's 75. -/
def cfgC2w2 : MatcherConfig :=
  { cfgC2w with fuzzy_match_auto := 80 }

/-- C3 counterexample configuration: a keyword group with an empty keyword
(matched by every description, the empty one included) below its auto
threshold. -/
def cfgC3ce : MatcherConfig :=
  { baseCfg with keyword_matches := [(chars "misc", ⟨[[]], 50, chars "Misc"⟩)] }

/-- C3 witness configuration: one keyword group scoring 65, below its auto
threshold 75. -/
def cfgC3w : MatcherConfig :=
  { baseCfg with keyword_matches := [(chars "m", ⟨[chars "MARKET"], 60, chars "Shops"⟩)] }

/-- C6's spec example: keyword group `{keywords: [AGRO, MARKET], weight: 90}`. -/
def cfgC6ex : MatcherConfig :=
  { baseCfg with
    keyword_matches := [(chars "food_stores", ⟨[chars "AGRO", chars "MARKET"], 90, chars "Food"⟩)] }

/-- C7 witness configuration: one valid and one invalid pattern. -/
def cfgC7w : MatcherConfig :=
  { baseCfg with
    pattern_matches := [(chars "transfer", ⟨[chars "P1", chars "BAD("], 60, chars "Transfers"⟩)] }

/-- C8 witness configuration: learning on, minimum confidence 80, at most 2
learned patterns per category. -/
def cfgC8on : MatcherConfig :=
  { baseCfg with
    track_success := true
    min_confidence_for_learning := 80
    max_learned_patterns := 2 }

/-- C8 witness state: the `Food` bucket already holds two learned
patterns. -/
def stC8 : MatcherState :=
  ⟨[], [], [(chars "Food", [⟨chars "A", 85, 1⟩, ⟨chars "B", 95, 1⟩])]⟩

/-- C9 witness configuration. -/
def cfgC9w : MatcherConfig :=
  { baseCfg with exact_matches := [(chars "AGROBAZAR", chars "Food")] }

/-- C10 counterexample configuration: the first pattern normalizes to the
empty string, the second is ordinary. -/
def cfgC10ce : MatcherConfig :=
  { baseCfg with exact_matches := [(chars " ", chars "T1"), (chars "X", chars "T2")] }

/-- C10 witness configuration: two ordinary patterns. -/
def cfgC10w : MatcherConfig :=
  { baseCfg with
    exact_matches := [(chars "AGROBAZAR", chars "Food"), (chars "LINELLA", chars "Groceries")] }

/-- C5 counterexample column map: description in column 0, amount in
column 1. -/
def cmC5ce : ColMap := ⟨none, none, some 0, some 1⟩

/-- C5 counterexample row: an empty-string (non-null) description cell and
a parseable amount cell. -/
def rowC5ce : List (Option (List Char)) := [some [], some (chars "1,00")]

/-- C5 witness column map: the spec §8.6 four-column layout. -/
def cmC5w : ColMap := ⟨some 0, some 1, some 2, some 3⟩

/-- C5 witness row: the spec §8.6 end-to-end data row. -/
def rowC5w : List (Option (List Char)) :=
  [some (chars "01.08.2025"), some (chars "02.08.2025"),
   some (chars "MAGAZIN ABC"), some (chars "123,45")]

/-- `cfgC7w` with the invalid pattern removed — used to witness that an
invalid pattern is skipped without affecting the outcome. -/
def cfgC7w2 : MatcherConfig :=
  { baseCfg with
    pattern_matches := [(chars "transfer", ⟨[chars "P1"], 60, chars "Transfers"⟩)] }

/-- The learned-pattern record `learn_from_correction` appends
(operations_matcher.py:325-329). -/
def newLearned (d : List Char) (c : ℚ) : LearnedPattern :=
  ⟨normalizeDescription d, c, 1⟩

/-! ## Helper lemmas -/

theorem toUpper_of_pySpace {c : Char} (h : pySpace c = true) : c.toUpper = c := by
  simp only [pySpace, Bool.or_eq_true, decide_eq_true_eq] at h
  rcases h with ((((((h | h) | h) | h) | h) | h) | h) <;> subst h <;> decide

theorem dropWhile_all_space {d : List Char} (h : ∀ c ∈ d, pySpace c = true) :
    d.dropWhile pySpace = [] := by
  induction d with
  | nil => rfl
  | cons a l ih =>
    rw [List.dropWhile_cons, if_pos (h a (List.mem_cons_self a l))]
    exact ih fun c hc => h c (List.mem_cons_of_mem a hc)

theorem stripPy_all_space {d : List Char} (h : ∀ c ∈ d, pySpace c = true) :
    stripPy d = [] := by
  unfold stripPy
  rw [dropWhile_all_space h]
  rfl

theorem upperPy_all_space {d : List Char} (h : ∀ c ∈ d, pySpace c = true) :
    upperPy d = d := by
  unfold upperPy
  induction d with
  | nil => rfl
  | cons a l ih =>
    simp only [List.map_cons]
    rw [toUpper_of_pySpace (h a (List.mem_cons_self a l))]
    have := ih fun c hc => h c (List.mem_cons_of_mem a hc)
    simp only [upperPy] at this
    rw [this]

theorem normalizeDescription_all_space {d : List Char} (h : ∀ c ∈ d, pySpace c = true) :
    normalizeDescription d = [] := by
  unfold normalizeDescription
  by_cases hd : d = []
  · rw [if_pos hd]
  · rw [if_neg hd, upperPy_all_space h, stripPy_all_space h]
    rfl

theorem findEqMatch_eq_none {nd : List Char} {l : List (List Char × List Char)}
    (h : ∀ p ∈ l, normalizeDescription p.1 ≠ nd) : findEqMatch nd l = none := by
  induction l with
  | nil => rfl
  | cons a rest ih =>
    obtain ⟨pat, ty⟩ := a
    unfold findEqMatch
    rw [if_neg (h (pat, ty) (List.mem_cons_self _ _))]
    exact ih fun p hp => h p (List.mem_cons_of_mem _ hp)

theorem findEqMatch_of_mem {nd : List Char} {l : List (List Char × List Char)}
    (h : ∃ p ∈ l, normalizeDescription p.1 = nd) :
    ∃ r, findEqMatch nd l = some r ∧ r.confidence = 100 ∧ r.method = .exact := by
  induction l with
  | nil => rcases h with ⟨p, hp, _⟩; cases hp
  | cons a rest ih =>
    obtain ⟨pat, ty⟩ := a
    by_cases hh : normalizeDescription pat = nd
    · exact ⟨⟨ty, 100, .exact⟩, by unfold findEqMatch; rw [if_pos hh], rfl, rfl⟩
    · rcases h with ⟨p, hp, hpe⟩
      rcases List.mem_cons.mp hp with heq | hmem
      · subst heq; exact absurd hpe hh
      · rcases ih ⟨p, hmem, hpe⟩ with ⟨r, hr1, hr2⟩
        exact ⟨r, by unfold findEqMatch; rw [if_neg hh]; exact hr1, hr2⟩

theorem containsSubstr_nil_right (l : List Char) : containsSubstr l [] = true := by
  cases l <;> simp [containsSubstr, startsWithL]

/-! ## Claim C1 -/

/-- Claim C1 as frozen is refuted by the empty description: with the
whitespace-only pattern `" "` configured (its normalized form is the empty
string, equal to the normalized form of `""`), `classify_operation("")`
returns no result through the empty-description guard instead of an exact
match with confidence 100. -/
theorem c1_counterexample :
    (∃ p ∈ cfgC1ce.exact_matches,
        normalizeDescription p.1 = normalizeDescription (chars "")) ∧
    classifyOperation roNone cfgC1ce (chars "") = none :=
  ⟨⟨(chars " ", chars "T1"), by decide, by decide⟩, by decide⟩

/-- Claim C1 (amended with non-emptiness, which the empty-description guard
forces): for every non-empty description whose normalized form equals the
normalized form of some configured exact-match pattern, `classify_operation`
returns a result with method `exact` and confidence 100, regardless of what
the fuzzy, keyword or pattern layers would return. -/
theorem c1_theorem (ro : RegexOracle) (cfg : MatcherConfig) (d : List Char)
    (hd : d ≠ [])
    (h : ∃ p ∈ cfg.exact_matches, normalizeDescription p.1 = normalizeDescription d) :
    ∃ r, classifyOperation ro cfg d = some r ∧ r.confidence = 100 ∧ r.method = .exact := by
  rcases findEqMatch_of_mem h with ⟨r, hr, hc, hm⟩
  have hx : exactMatch cfg d = some r := by
    unfold exactMatch exactMatchCore
    rw [hr]
  refine ⟨r, ?_, hc, hm⟩
  unfold classifyOperation
  rw [if_neg hd, hx]

/-- Witness for `c1_theorem`: `"  agrobazar "` normalizes to the configured
pattern `AGROBAZAR` (whose keyword layer would also match), and
classification returns exact/100. -/
theorem c1_witness :
    ∃ r, classifyOperation roNone cfgC1w (chars "  agrobazar ") = some r ∧
      r.confidence = 100 ∧ r.method = .exact :=
  c1_theorem roNone cfgC1w (chars "  agrobazar ") (by decide)
    ⟨(chars "AGROBAZAR", chars "Food"), by decide, by decide⟩

/-! ## Claim C10 -/

/-- Claim C10 as frozen is refuted when some configured pattern has an empty
normalized form: with `exact_matches = {" ": T1, "X": T2}` (so a pattern
with non-empty normalized form exists, as the claim requires), the
whitespace-only description matches the pattern `" "` in the **equality**
loop first and gets confidence 100, not 95. -/
theorem c10_counterexample :
    (chars " " ≠ [] ∧ ∀ c ∈ chars " ", pySpace c = true) ∧
    (∃ p ∈ cfgC10ce.exact_matches, normalizeDescription p.1 ≠ []) ∧
    classifyOperation roNone cfgC10ce (chars " ") = some ⟨chars "T1", 100, .exact⟩ ∧
    classifyOperation roNone cfgC10ce (chars " ") ≠ some ⟨chars "T1", 95, .exact⟩ := by
  refine ⟨by decide, ⟨(chars "X", chars "T2"), by decide, by decide⟩, by decide, by decide⟩

/-- Claim C10 (amended: *every* configured pattern must have a non-empty
normalized form, else the equality loop can fire first with confidence
100): a non-empty whitespace-only description normalizes to the empty
string, which is a substring of every pattern, so classification returns
the **first** configured pattern with method `exact` and confidence 95
rather than no result. -/
theorem c10_theorem (ro : RegexOracle) (cfg : MatcherConfig) (d pat ty : List Char)
    (restEM : List (List Char × List Char))
    (hd : d ≠ []) (hws : ∀ c ∈ d, pySpace c = true)
    (hcfg : cfg.exact_matches = (pat, ty) :: restEM)
    (hne : ∀ p ∈ cfg.exact_matches, normalizeDescription p.1 ≠ []) :
    classifyOperation ro cfg d = some ⟨ty, 95, .exact⟩ := by
  have hnd : normalizeDescription d = [] := normalizeDescription_all_space hws
  have heq : findEqMatch [] cfg.exact_matches = none := findEqMatch_eq_none hne
  have hsub : findSubMatch [] cfg.exact_matches = some ⟨ty, 95, .exact⟩ := by
    rw [hcfg]
    unfold findSubMatch
    simp [containsSubstr_nil_right]
  have hx : exactMatch cfg d = some ⟨ty, 95, .exact⟩ := by
    unfold exactMatch exactMatchCore
    rw [hnd, heq, hsub]
  unfold classifyOperation
  rw [if_neg hd, hx]

/-- Witness for `c10_theorem`: the whitespace description `" "` against two
ordinary patterns is classified as the first one, exact/95. -/
theorem c10_witness :
    classifyOperation roNone cfgC10w (chars " ") = some ⟨chars "Food", 95, .exact⟩ :=
  c10_theorem roNone cfgC10w (chars " ") (chars "AGROBAZAR") (chars "Food")
    [(chars "LINELLA", chars "Groceries")] (by decide) (by decide) (by decide) (by decide)

theorem pyMax_spec (cs : List MatchResult) : ∀ (c : MatchResult),
    (pyMaxByConfidence c cs = c ∨ pyMaxByConfidence c cs ∈ cs) ∧
    c.confidence ≤ (pyMaxByConfidence c cs).confidence ∧
    ∀ x ∈ cs, x.confidence ≤ (pyMaxByConfidence c cs).confidence := by
  induction cs with
  | nil =>
    intro c
    exact ⟨Or.inl rfl, le_refl _, by intro x hx; cases hx⟩
  | cons x xs ih =>
    intro c
    have hstep : pyMaxByConfidence c (x :: xs) =
        pyMaxByConfidence (if c.confidence < x.confidence then x else c) xs := rfl
    by_cases h : c.confidence < x.confidence
    · rw [hstep, if_pos h]
      rcases ih x with ⟨hmem, hle, hall⟩
      refine ⟨?_, le_trans (le_of_lt h) hle, ?_⟩
      · rcases hmem with he | hm
        · right; rw [he]; exact List.mem_cons_self _ _
        · right; exact List.mem_cons_of_mem _ hm
      · intro y hy
        rcases List.mem_cons.mp hy with rfl | hm
        · exact hle
        · exact hall y hm
    · rw [hstep, if_neg h]
      rcases ih c with ⟨hmem, hle, hall⟩
      refine ⟨?_, hle, ?_⟩
      · rcases hmem with he | hm
        · exact Or.inl he
        · exact Or.inr (List.mem_cons_of_mem _ hm)
      · intro y hy
        rcases List.mem_cons.mp hy with rfl | hm
        · exact le_trans (not_lt.mp h) hle
        · exact hall y hm

theorem pyMax_of_all_le (cs : List MatchResult) : ∀ c, (∀ x ∈ cs, x.confidence ≤ c.confidence) →
    pyMaxByConfidence c cs = c := by
  induction cs with
  | nil => intro c _; rfl
  | cons x xs ih =>
    intro c h
    have hstep : pyMaxByConfidence c (x :: xs) =
        pyMaxByConfidence (if c.confidence < x.confidence then x else c) xs := rfl
    rw [hstep, if_neg (not_lt.mpr (h x (List.mem_cons_self _ _)))]
    exact ih c fun y hy => h y (List.mem_cons_of_mem _ hy)

theorem calculateSimilarity_nil_left (pat : List Char) : calculateSimilarity [] pat = 0 := by
  unfold calculateSimilarity
  rw [if_pos (Or.inl rfl)]

theorem fuzzyMatchAux_nil_nd (minSim : ℚ) :
    ∀ (l : List (List Char × List Char)) (best : Option MatchResult) (bs : ℚ), 0 ≤ bs →
      fuzzyMatchAux [] minSim l best bs = best := by
  intro l
  induction l with
  | nil => intro best bs _; rfl
  | cons a rest ih =>
    intro best bs hbs
    obtain ⟨pat, ty⟩ := a
    show fuzzyMatchAux [] minSim ((pat, ty) :: rest) best bs = best
    unfold fuzzyMatchAux
    rw [calculateSimilarity_nil_left]
    rw [if_neg fun hc => absurd hc.1 (not_lt.mpr hbs)]
    exact ih best bs hbs

theorem fuzzyMatchCore_nil (cfg : MatcherConfig) : fuzzyMatchCore cfg [] = none :=
  fuzzyMatchAux_nil_nd _ _ none 0 (le_refl 0)

theorem fuzzyMatch_nil (cfg : MatcherConfig) : fuzzyMatch cfg [] = none :=
  fuzzyMatchCore_nil cfg

theorem fuzzyMatchAux_method (nd : List Char) (minSim : ℚ) :
    ∀ (l : List (List Char × List Char)) (best : Option MatchResult) (bs : ℚ),
      (∀ m, best = some m → m.method = .fuzzy) →
      ∀ m, fuzzyMatchAux nd minSim l best bs = some m → m.method = .fuzzy := by
  intro l
  induction l with
  | nil => intro best bs hb m hm; exact hb m hm
  | cons a rest ih =>
    intro best bs hb m hm
    obtain ⟨pat, ty⟩ := a
    unfold fuzzyMatchAux at hm
    by_cases hc : bs < calculateSimilarity nd pat ∧ minSim ≤ calculateSimilarity nd pat
    · rw [if_pos hc] at hm
      exact ih _ _ (fun m' hm' => by cases hm'; rfl) m hm
    · rw [if_neg hc] at hm
      exact ih _ _ hb m hm

theorem fuzzyMatch_method (cfg : MatcherConfig) (d : List Char) (r : MatchResult)
    (h : fuzzyMatch cfg d = some r) : r.method = .fuzzy :=
  fuzzyMatchAux_method _ _ _ none 0 (fun _ hm => by cases hm) r h

theorem fuzzyMatch_ne_nil {cfg : MatcherConfig} {d : List Char} {r : MatchResult}
    (h : fuzzyMatch cfg d = some r) : d ≠ [] := by
  intro hde
  rw [hde, fuzzyMatch_nil] at h
  cases h

theorem classifyOperation_eq_layers (ro : RegexOracle) (cfg : MatcherConfig) (d : List Char)
    (hd : d ≠ []) (hex : exactMatch cfg d = none) :
    classifyOperation ro cfg d =
      (if autoOk (fuzzyMatch cfg d) cfg.fuzzy_match_auto = true then fuzzyMatch cfg d
       else if autoOk (keywordMatch cfg d) cfg.keyword_match_auto = true then keywordMatch cfg d
       else if autoOk (patternMatch ro cfg d) cfg.pattern_match_auto = true then
         patternMatch ro cfg d
       else bestCandidate (fuzzyMatch cfg d) (keywordMatch cfg d) (patternMatch ro cfg d)) := by
  unfold classifyOperation
  rw [if_neg hd, hex]

/-! ## Claim C3 -/

/-- Claim C3 as frozen is refuted by the empty description: under a keyword
group with an empty keyword (a substring of everything), the keyword layer
produces a candidate with confidence 55, below its auto threshold, no exact
match exists and no other layer reaches its threshold, yet
`classify_operation("")` returns no result through the empty-description
guard instead of that highest-confidence candidate. -/
theorem c3_counterexample :
    exactMatch cfgC3ce (chars "") = none ∧
    autoOk (fuzzyMatch cfgC3ce (chars "")) cfgC3ce.fuzzy_match_auto = false ∧
    keywordMatch cfgC3ce (chars "") = some ⟨chars "Misc", 55, .keyword⟩ ∧
    autoOk (keywordMatch cfgC3ce (chars "")) cfgC3ce.keyword_match_auto = false ∧
    autoOk (patternMatch roNone cfgC3ce (chars "")) cfgC3ce.pattern_match_auto = false ∧
    classifyOperation roNone cfgC3ce (chars "") = none := by
  with_unfolding_all decide

/-- Claim C3 (amended with non-emptiness, which the empty-description guard
forces): for every non-empty description with no exact match on which no
fuzzy/keyword/pattern candidate reaches its own auto-accept threshold,
`classify_operation` returns no result when none of the three layers
matched, and otherwise a highest-confidence candidate among the layer
results. -/
theorem c3_theorem (ro : RegexOracle) (cfg : MatcherConfig) (d : List Char)
    (hd : d ≠ [])
    (hex : exactMatch cfg d = none)
    (hfz : autoOk (fuzzyMatch cfg d) cfg.fuzzy_match_auto = false)
    (hkw : autoOk (keywordMatch cfg d) cfg.keyword_match_auto = false)
    (hpt : autoOk (patternMatch ro cfg d) cfg.pattern_match_auto = false) :
    ((fuzzyMatch cfg d).toList ++ (keywordMatch cfg d).toList ++
        (patternMatch ro cfg d).toList = [] →
      classifyOperation ro cfg d = none) ∧
    (∀ c cs, (fuzzyMatch cfg d).toList ++ (keywordMatch cfg d).toList ++
        (patternMatch ro cfg d).toList = c :: cs →
      ∃ r, classifyOperation ro cfg d = some r ∧ r ∈ c :: cs ∧
        ∀ x ∈ c :: cs, x.confidence ≤ r.confidence) := by
  have hcl : classifyOperation ro cfg d =
      bestCandidate (fuzzyMatch cfg d) (keywordMatch cfg d) (patternMatch ro cfg d) := by
    rw [classifyOperation_eq_layers ro cfg d hd hex, hfz, hkw, hpt]
    rfl
  constructor
  · intro h0
    rw [hcl]
    unfold bestCandidate
    rw [h0]
  · intro c cs hcons
    rw [hcl]
    unfold bestCandidate
    rw [hcons]
    rcases pyMax_spec cs c with ⟨hmem, hle, hall⟩
    refine ⟨pyMaxByConfidence c cs, rfl, ?_, ?_⟩
    · rcases hmem with he | hm
      · rw [he]; exact List.mem_cons_self _ _
      · exact List.mem_cons_of_mem _ hm
    · intro x hx
      rcases List.mem_cons.mp hx with rfl | hm
      · exact hle
      · exact hall x hm

/-- Witness for `c3_theorem`: under `cfgC3w` the description `MARKET X`
yields only the keyword candidate (confidence 65, below the threshold 75),
which classification returns as the best low-confidence candidate. -/
theorem c3_witness :
    ∃ r, classifyOperation roNone cfgC3w (chars "MARKET X") = some r ∧
      r ∈ [(⟨chars "Shops", 65, .keyword⟩ : MatchResult)] ∧
      ∀ x ∈ [(⟨chars "Shops", 65, .keyword⟩ : MatchResult)],
        x.confidence ≤ r.confidence :=
  (c3_theorem roNone cfgC3w (chars "MARKET X") (by decide) (by decide) (by decide)
      (by with_unfolding_all decide) (by decide)).2
    ⟨chars "Shops", 65, .keyword⟩ [] (by with_unfolding_all decide)

/-! ## Claim C2 -/

/-- Claim C2's third part as frozen is refuted: under `cfgC2ce` the fuzzy
candidate (confidence 75) is below its auto threshold 80 and no other layer
produces a higher-confidence candidate, yet classification returns the
keyword candidate (confidence 70), which auto-accepts at its own lower
threshold before the collection phase is reached. -/
theorem c2_counterexample :
    fuzzyMatch cfgC2ce (chars "ABCD") = some ⟨chars "T1", 75, .fuzzy⟩ ∧
    (75 : ℚ) < cfgC2ce.fuzzy_match_auto ∧
    (∀ x ∈ (keywordMatch cfgC2ce (chars "ABCD")).toList ++
        (patternMatch roNone cfgC2ce (chars "ABCD")).toList, x.confidence < 75) ∧
    classifyOperation roNone cfgC2ce (chars "ABCD") = some ⟨chars "T2", 70, .keyword⟩ ∧
    classifyOperation roNone cfgC2ce (chars "ABCD") ≠ some ⟨chars "T1", 75, .fuzzy⟩ := by
  with_unfolding_all decide

/-- Claim C2 (first two parts as frozen; third part amended with "and no
other layer reaches its own auto-accept threshold", which the
counterexample forces): the fuzzy auto-accept boundary is inclusive — a
fuzzy candidate with confidence exactly `fuzzy_match_auto` is returned at
the fuzzy step and flagged `should_auto_assign` in the batch suggestions;
a fuzzy candidate below the threshold is still returned as the overall
result when no other layer auto-accepts and none has higher confidence. -/
theorem c2_theorem (ro : RegexOracle) (cfg : MatcherConfig) (d : List Char)
    (i : Nat) (r : MatchResult) :
    (exactMatch cfg d = none → fuzzyMatch cfg d = some r →
      r.confidence = cfg.fuzzy_match_auto →
      classifyOperation ro cfg d = some r) ∧
    (exactMatch cfg d = none → fuzzyMatch cfg d = some r →
      r.confidence = cfg.fuzzy_match_auto →
      getClassificationSuggestions ro cfg [(i, d)] =
        [⟨i, r.type_name, r.confidence, r.method, true⟩]) ∧
    (exactMatch cfg d = none → fuzzyMatch cfg d = some r →
      r.confidence < cfg.fuzzy_match_auto →
      autoOk (keywordMatch cfg d) cfg.keyword_match_auto = false →
      autoOk (patternMatch ro cfg d) cfg.pattern_match_auto = false →
      (∀ x ∈ (keywordMatch cfg d).toList ++ (patternMatch ro cfg d).toList,
        x.confidence ≤ r.confidence) →
      classifyOperation ro cfg d = some r) := by
  have part1 : exactMatch cfg d = none → fuzzyMatch cfg d = some r →
      r.confidence = cfg.fuzzy_match_auto → classifyOperation ro cfg d = some r := by
    intro hex hfz hconf
    have hauto : autoOk (fuzzyMatch cfg d) cfg.fuzzy_match_auto = true := by
      rw [hfz]
      show decide (cfg.fuzzy_match_auto ≤ r.confidence) = true
      rw [hconf]
      exact decide_eq_true (le_refl _)
    rw [classifyOperation_eq_layers ro cfg d (fuzzyMatch_ne_nil hfz) hex, hauto]
    exact hfz
  refine ⟨part1, ?_, ?_⟩
  · intro hex hfz hconf
    have hcl := part1 hex hfz hconf
    have hmethod : r.method = .fuzzy := fuzzyMatch_method cfg d r hfz
    have hsaa : shouldAutoAssign cfg r = true := by
      unfold shouldAutoAssign
      rw [hmethod, hconf]
      exact decide_eq_true (le_refl _)
    unfold getClassificationSuggestions
    simp [hcl, hsaa]
  · intro hex hfz hlt hkw hpt hall
    have hfza : autoOk (fuzzyMatch cfg d) cfg.fuzzy_match_auto = false := by
      rw [hfz]
      show decide (cfg.fuzzy_match_auto ≤ r.confidence) = false
      exact decide_eq_false (not_le.mpr hlt)
    rw [classifyOperation_eq_layers ro cfg d (fuzzyMatch_ne_nil hfz) hex, hfza, hkw, hpt]
    show bestCandidate (fuzzyMatch cfg d) (keywordMatch cfg d) (patternMatch ro cfg d) = some r
    unfold bestCandidate
    rw [hfz]
    have hstep : (some r).toList ++ (keywordMatch cfg d).toList ++
        (patternMatch ro cfg d).toList =
        r :: ((keywordMatch cfg d).toList ++ (patternMatch ro cfg d).toList) := by
      simp
    rw [hstep]
    show some (pyMaxByConfidence r _) = some r
    rw [pyMax_of_all_le _ r hall]

/-- Witness for `c2_theorem`: under `cfgC2w` the description `ABCD`
fuzzy-matches `ABCE` at exactly the threshold 75 and is returned and
flagged auto-assignable; under `cfgC2w2` (threshold 80) the same candidate
is below the threshold and is still returned as the best candidate. -/
theorem c2_witness :
    classifyOperation roNone cfgC2w (chars "ABCD") = some ⟨chars "T1", 75, .fuzzy⟩ ∧
    getClassificationSuggestions roNone cfgC2w [(7, chars "ABCD")] =
      [⟨7, chars "T1", 75, .fuzzy, true⟩] ∧
    classifyOperation roNone cfgC2w2 (chars "ABCD") = some ⟨chars "T1", 75, .fuzzy⟩ :=
  ⟨(c2_theorem roNone cfgC2w (chars "ABCD") 7 ⟨chars "T1", 75, .fuzzy⟩).1
      (by decide) (by decide) (by decide),
   (c2_theorem roNone cfgC2w (chars "ABCD") 7 ⟨chars "T1", 75, .fuzzy⟩).2.1
      (by decide) (by decide) (by decide),
   (c2_theorem roNone cfgC2w2 (chars "ABCD") 7 ⟨chars "T1", 75, .fuzzy⟩).2.2
      (by decide) (by decide) (by decide) (by decide) (by decide) (by decide)⟩

/-! ## Claim C6 -/

theorem keywordMatchAux_cons (nd cat : List Char) (g : KeywordGroup)
    (rest : List (List Char × KeywordGroup)) (best : Option MatchResult) (bs : ℚ) :
    keywordMatchAux nd ((cat, g) :: rest) best bs =
      if (matchedKeywords g nd).length ≠ 0 ∧ bs < keywordScore g nd then
        keywordMatchAux nd rest (some ⟨g.type_name, keywordScore g nd, .keyword⟩)
          (keywordScore g nd)
      else keywordMatchAux nd rest best bs := rfl

theorem keywordMatchAux_spec (nd : List Char) :
    ∀ (l : List (List Char × KeywordGroup)) (best : Option MatchResult) (bs : ℚ),
      (∀ m, best = some m → m.confidence = bs) →
      (keywordMatchAux nd l best bs = best ∨
        ∃ p ∈ l, 1 ≤ (matchedKeywords p.2 nd).length ∧
          keywordMatchAux nd l best bs =
            some ⟨p.2.type_name, keywordScore p.2 nd, .keyword⟩) ∧
      (∀ q ∈ l, 1 ≤ (matchedKeywords q.2 nd).length →
        keywordScore q.2 nd ≤ resConf (keywordMatchAux nd l best bs) bs) ∧
      bs ≤ resConf (keywordMatchAux nd l best bs) bs := by
  intro l
  induction l with
  | nil =>
    intro best bs hb
    refine ⟨Or.inl rfl, ?_, ?_⟩
    · intro q hq
      cases hq
    · cases best with
      | none => exact le_refl _
      | some m => exact le_of_eq (hb m rfl).symm
  | cons a rest ih =>
    intro best bs hb
    obtain ⟨cat, g⟩ := a
    by_cases hc : (matchedKeywords g nd).length ≠ 0 ∧ bs < keywordScore g nd
    · rw [keywordMatchAux_cons, if_pos hc]
      rcases ih (some ⟨g.type_name, keywordScore g nd, .keyword⟩) (keywordScore g nd)
          (fun m hm => by cases hm; rfl) with ⟨h1, h2, h3⟩
      have hsome : ∃ m, keywordMatchAux nd rest
          (some ⟨g.type_name, keywordScore g nd, .keyword⟩) (keywordScore g nd) = some m := by
        rcases h1 with he | ⟨p, _, _, hres⟩
        · exact ⟨_, he⟩
        · exact ⟨_, hres⟩
      obtain ⟨m, hm⟩ := hsome
      rw [hm] at h1 h2 h3 ⊢
      refine ⟨?_, ?_, ?_⟩
      · rcases h1 with he | ⟨p, hp, hpcnt, hres⟩
        · exact Or.inr ⟨(cat, g), List.mem_cons_self _ _,
            Nat.one_le_iff_ne_zero.mpr hc.1, he⟩
        · exact Or.inr ⟨p, List.mem_cons_of_mem _ hp, hpcnt, hres⟩
      · intro q hq hqcnt
        rcases List.mem_cons.mp hq with heq | hmem
        · subst heq
          exact h3
        · exact h2 q hmem hqcnt
      · exact le_trans (le_of_lt hc.2) h3
    · rw [keywordMatchAux_cons, if_neg hc]
      rcases ih best bs hb with ⟨h1, h2, h3⟩
      refine ⟨?_, ?_, h3⟩
      · rcases h1 with he | ⟨p, hp, hcnt, hres⟩
        · exact Or.inl he
        · exact Or.inr ⟨p, List.mem_cons_of_mem _ hp, hcnt, hres⟩
      · intro q hq hcnt
        rcases List.mem_cons.mp hq with heq | hmem
        · subst heq
          have hs : keywordScore g nd ≤ bs := by
            by_contra hlt
            exact hc ⟨Nat.one_le_iff_ne_zero.mp hcnt, lt_of_not_le hlt⟩
          exact le_trans hs h3
        · exact h2 q hmem hcnt

theorem keywordScore_pos (g : KeywordGroup) (nd : List Char) (hw : 1 ≤ g.weight)
    (_hcnt : 1 ≤ (matchedKeywords g nd).length) : 0 < keywordScore g nd := by
  unfold keywordScore pyMin
  have hlen : (0 : ℚ) ≤ 5 * ((matchedKeywords g nd).length : ℚ) := by
    have h0 : (0 : ℚ) ≤ ((matchedKeywords g nd).length : ℚ) := Nat.cast_nonneg _
    linarith
  by_cases h : g.weight + 5 * ((matchedKeywords g nd).length : ℚ) ≤ 95
  · rw [if_pos h]
    linarith
  · rw [if_neg h]
    norm_num

/-- Claim C6 (confirmed; by the spec's rule store every keyword group has
weight at least 1, §3): a keyword result is the score
`min(weight + 5*matched, 95)` of a group with at least one
case-insensitively contained keyword and dominates every other matching
group; whenever some group matches, a result is produced; and the spec's
example — group `{keywords:[AGRO, MARKET], weight:90}` against
`AGRO MARKET SUPPLY` — scores exactly 95. -/
theorem c6_theorem (cfg : MatcherConfig) (d : List Char)
    (hw : ∀ p ∈ cfg.keyword_matches, 1 ≤ p.2.weight) :
    (∀ r, keywordMatch cfg d = some r →
      ∃ p ∈ cfg.keyword_matches,
        1 ≤ (matchedKeywords p.2 (normalizeDescription d)).length ∧
        r = ⟨p.2.type_name, keywordScore p.2 (normalizeDescription d), .keyword⟩ ∧
        ∀ q ∈ cfg.keyword_matches,
          1 ≤ (matchedKeywords q.2 (normalizeDescription d)).length →
          keywordScore q.2 (normalizeDescription d) ≤ r.confidence) ∧
    ((∃ p ∈ cfg.keyword_matches,
        1 ≤ (matchedKeywords p.2 (normalizeDescription d)).length) →
      keywordMatch cfg d ≠ none) ∧
    keywordMatch cfgC6ex (chars "AGRO MARKET SUPPLY") =
      some ⟨chars "Food", 95, .keyword⟩ := by
  rcases keywordMatchAux_spec (normalizeDescription d) cfg.keyword_matches none 0
      (fun m hm => by cases hm) with ⟨h1, h2, _⟩
  refine ⟨?_, ?_, by with_unfolding_all decide⟩
  · intro r hr
    unfold keywordMatch at hr
    rcases h1 with he | ⟨p, hp, hcnt, hres⟩
    · rw [hr] at he
      cases he
    · have hrr : r = ⟨p.2.type_name, keywordScore p.2 (normalizeDescription d), .keyword⟩ := by
        rw [hr] at hres
        exact Option.some_inj.mp hres
      refine ⟨p, hp, hcnt, hrr, ?_⟩
      intro q hq hqcnt
      have hh := h2 q hq hqcnt
      rw [hr] at hh
      exact hh
  · rintro ⟨p, hp, hcnt⟩ hnone
    unfold keywordMatch at hnone
    have hle := h2 p hp hcnt
    rw [hnone] at hle
    exact absurd hle (not_le.mpr (keywordScore_pos p.2 _ (hw p hp) hcnt))

/-- Witness for `c6_theorem`: under `cfgC6ex` the description
`AGRO MARKET SUPPLY` (both keywords contained) is classified by the keyword
layer. -/
theorem c6_witness :
    keywordMatch cfgC6ex (chars "AGRO MARKET SUPPLY") ≠ none :=
  (c6_theorem cfgC6ex (chars "AGRO MARKET SUPPLY") (by decide)).2.1
    ⟨(chars "food_stores", ⟨[chars "AGRO", chars "MARKET"], 90, chars "Food"⟩),
      by decide, by decide⟩

/-! ## Claim C7 -/

theorem patternMatchAux_cons (ro : RegexOracle) (nd cat : List Char) (g : PatternGroup)
    (rest : List (List Char × PatternGroup)) (best : Option MatchResult) (bs : ℚ) :
    patternMatchAux ro nd ((cat, g) :: rest) best bs =
      if (matchedPatterns ro g nd).length ≠ 0 ∧ bs < patternScore ro g nd then
        patternMatchAux ro nd rest (some ⟨g.type_name, patternScore ro g nd, .pattern⟩)
          (patternScore ro g nd)
      else patternMatchAux ro nd rest best bs := rfl

theorem patternMatchAux_spec (ro : RegexOracle) (nd : List Char) :
    ∀ (l : List (List Char × PatternGroup)) (best : Option MatchResult) (bs : ℚ),
      (∀ m, best = some m → m.confidence = bs) →
      (patternMatchAux ro nd l best bs = best ∨
        ∃ p ∈ l, 1 ≤ (matchedPatterns ro p.2 nd).length ∧
          patternMatchAux ro nd l best bs =
            some ⟨p.2.type_name, patternScore ro p.2 nd, .pattern⟩) ∧
      (∀ q ∈ l, 1 ≤ (matchedPatterns ro q.2 nd).length →
        patternScore ro q.2 nd ≤ resConf (patternMatchAux ro nd l best bs) bs) ∧
      bs ≤ resConf (patternMatchAux ro nd l best bs) bs := by
  intro l
  induction l with
  | nil =>
    intro best bs hb
    refine ⟨Or.inl rfl, ?_, ?_⟩
    · intro q hq
      cases hq
    · cases best with
      | none => exact le_refl _
      | some m => exact le_of_eq (hb m rfl).symm
  | cons a rest ih =>
    intro best bs hb
    obtain ⟨cat, g⟩ := a
    by_cases hc : (matchedPatterns ro g nd).length ≠ 0 ∧ bs < patternScore ro g nd
    · rw [patternMatchAux_cons, if_pos hc]
      rcases ih (some ⟨g.type_name, patternScore ro g nd, .pattern⟩) (patternScore ro g nd)
          (fun m hm => by cases hm; rfl) with ⟨h1, h2, h3⟩
      have hsome : ∃ m, patternMatchAux ro nd rest
          (some ⟨g.type_name, patternScore ro g nd, .pattern⟩) (patternScore ro g nd) = some m := by
        rcases h1 with he | ⟨p, _, _, hres⟩
        · exact ⟨_, he⟩
        · exact ⟨_, hres⟩
      obtain ⟨m, hm⟩ := hsome
      rw [hm] at h1 h2 h3 ⊢
      refine ⟨?_, ?_, ?_⟩
      · rcases h1 with he | ⟨p, hp, hcnt, hres⟩
        · exact Or.inr ⟨(cat, g), List.mem_cons_self _ _,
            Nat.one_le_iff_ne_zero.mpr hc.1, he⟩
        · exact Or.inr ⟨p, List.mem_cons_of_mem _ hp, hcnt, hres⟩
      · intro q hq hqcnt
        rcases List.mem_cons.mp hq with heq | hmem
        · subst heq
          exact h3
        · exact h2 q hmem hqcnt
      · exact le_trans (le_of_lt hc.2) h3
    · rw [patternMatchAux_cons, if_neg hc]
      rcases ih best bs hb with ⟨h1, h2, h3⟩
      refine ⟨?_, ?_, h3⟩
      · rcases h1 with he | ⟨p, hp, hcnt, hres⟩
        · exact Or.inl he
        · exact Or.inr ⟨p, List.mem_cons_of_mem _ hp, hcnt, hres⟩
      · intro q hq hqcnt
        rcases List.mem_cons.mp hq with heq | hmem
        · subst heq
          have hs : patternScore ro g nd ≤ bs := by
            by_contra hlt
            exact hc ⟨Nat.one_le_iff_ne_zero.mp hqcnt, lt_of_not_le hlt⟩
          exact le_trans hs h3
        · exact h2 q hmem hqcnt

theorem patternScore_pos (ro : RegexOracle) (g : PatternGroup) (nd : List Char)
    (hw : 1 ≤ g.weight) (_hcnt : 1 ≤ (matchedPatterns ro g nd).length) :
    0 < patternScore ro g nd := by
  unfold patternScore pyMin
  have hlen : (0 : ℚ) ≤ 3 * ((matchedPatterns ro g nd).length : ℚ) := by
    have h0 : (0 : ℚ) ≤ ((matchedPatterns ro g nd).length : ℚ) := Nat.cast_nonneg _
    linarith
  by_cases h : g.weight + 3 * ((matchedPatterns ro g nd).length : ℚ) ≤ 90
  · rw [if_pos h]
    linarith
  · rw [if_neg h]
    norm_num

theorem matchedPatterns_skip_invalid (ro : RegexOracle) (nd bad : List Char)
    (hbad : ∀ s, ro bad s = none) (ps1 ps2 : List (List Char)) (w : ℚ) (ty : List Char) :
    matchedPatterns ro ⟨ps1 ++ bad :: ps2, w, ty⟩ nd =
      matchedPatterns ro ⟨ps1 ++ ps2, w, ty⟩ nd := by
  unfold matchedPatterns
  simp only [List.filter_append, List.filter_cons, hbad nd]
  simp

theorem patternMatchAux_congr_group (ro : RegexOracle) (nd : List Char)
    (g1 g2 : PatternGroup) (hty : g1.type_name = g2.type_name) (hw : g1.weight = g2.weight)
    (hmp : matchedPatterns ro g1 nd = matchedPatterns ro g2 nd) :
    ∀ (pre : List (List Char × PatternGroup)) (cat : List Char)
      (rest : List (List Char × PatternGroup)) (best : Option MatchResult) (bs : ℚ),
      patternMatchAux ro nd (pre ++ (cat, g1) :: rest) best bs =
        patternMatchAux ro nd (pre ++ (cat, g2) :: rest) best bs := by
  have hsc : patternScore ro g1 nd = patternScore ro g2 nd := by
    unfold patternScore
    rw [hmp, hw]
  intro pre
  induction pre with
  | nil =>
    intro cat rest best bs
    simp only [List.nil_append]
    rw [patternMatchAux_cons, patternMatchAux_cons, hmp, hsc, hty]
  | cons a pre' ih =>
    intro cat rest best bs
    obtain ⟨c, h⟩ := a
    simp only [List.cons_append]
    rw [patternMatchAux_cons, patternMatchAux_cons]
    by_cases hcond : (matchedPatterns ro h nd).length ≠ 0 ∧ bs < patternScore ro h nd
    · rw [if_pos hcond, if_pos hcond]
      exact ih cat rest _ _
    · rw [if_neg hcond, if_neg hcond]
      exact ih cat rest best bs

/-- Claim C7 (confirmed; by the spec's rule store every pattern group has
weight at least 1, §3): a pattern result is the score
`min(weight + 3*matched, 90)` of a group with at least one matching valid
pattern and dominates every other matching group; whenever some group
matches, a result is produced; and a pattern that is an invalid regular
expression (the oracle answers `none` on every input, modelling `re.error`)
is silently skipped — removing it from its group changes nothing. -/
theorem c7_theorem (ro : RegexOracle) (cfg : MatcherConfig) (d : List Char)
    (hw : ∀ p ∈ cfg.pattern_matches, 1 ≤ p.2.weight) :
    (∀ r, patternMatch ro cfg d = some r →
      ∃ p ∈ cfg.pattern_matches,
        1 ≤ (matchedPatterns ro p.2 (normalizeDescription d)).length ∧
        r = ⟨p.2.type_name, patternScore ro p.2 (normalizeDescription d), .pattern⟩ ∧
        ∀ q ∈ cfg.pattern_matches,
          1 ≤ (matchedPatterns ro q.2 (normalizeDescription d)).length →
          patternScore ro q.2 (normalizeDescription d) ≤ r.confidence) ∧
    ((∃ p ∈ cfg.pattern_matches,
        1 ≤ (matchedPatterns ro p.2 (normalizeDescription d)).length) →
      patternMatch ro cfg d ≠ none) ∧
    (∀ (cfg2 : MatcherConfig) (bad cat ty : List Char)
        (pre post : List (List Char × PatternGroup)) (ps1 ps2 : List (List Char)) (w : ℚ),
      (∀ s, ro bad s = none) →
      cfg.pattern_matches = pre ++ (cat, ⟨ps1 ++ bad :: ps2, w, ty⟩) :: post →
      cfg2.pattern_matches = pre ++ (cat, ⟨ps1 ++ ps2, w, ty⟩) :: post →
      patternMatch ro cfg d = patternMatch ro cfg2 d) := by
  rcases patternMatchAux_spec ro (normalizeDescription d) cfg.pattern_matches none 0
      (fun m hm => by cases hm) with ⟨h1, h2, _⟩
  refine ⟨?_, ?_, ?_⟩
  · intro r hr
    unfold patternMatch at hr
    rcases h1 with he | ⟨p, hp, hcnt, hres⟩
    · rw [hr] at he
      cases he
    · have hrr : r = ⟨p.2.type_name, patternScore ro p.2 (normalizeDescription d), .pattern⟩ := by
        rw [hr] at hres
        exact Option.some_inj.mp hres
      refine ⟨p, hp, hcnt, hrr, ?_⟩
      intro q hq hqcnt
      have hh := h2 q hq hqcnt
      rw [hr] at hh
      exact hh
  · rintro ⟨p, hp, hcnt⟩ hnone
    unfold patternMatch at hnone
    have hle := h2 p hp hcnt
    rw [hnone] at hle
    exact absurd hle (not_le.mpr (patternScore_pos ro p.2 _ (hw p hp) hcnt))
  · intro cfg2 bad cat ty pre post ps1 ps2 w hbad hcfg1 hcfg2
    unfold patternMatch
    rw [hcfg1, hcfg2]
    exact patternMatchAux_congr_group ro (normalizeDescription d)
      ⟨ps1 ++ bad :: ps2, w, ty⟩ ⟨ps1 ++ ps2, w, ty⟩ rfl rfl
      (matchedPatterns_skip_invalid ro (normalizeDescription d) bad hbad ps1 ps2 w ty)
      pre cat post none 0

theorem roSub_bad_invalid : ∀ s, roSub (chars "BAD(") s = none := by
  intro s
  show (if chars "BAD(" = chars "BAD(" then none
        else some (containsSubstr s (chars "BAD("))) = none
  rw [if_pos rfl]

/-- Witness for `c7_theorem`: under `cfgC7w` (one valid pattern `P1`, one
invalid pattern `BAD(`) the description `P1 TRANSFER` gets a pattern
result, and removing the invalid pattern (`cfgC7w2`) leaves the outcome
unchanged. -/
theorem c7_witness :
    patternMatch roSub cfgC7w (chars "P1 TRANSFER") ≠ none ∧
    patternMatch roSub cfgC7w (chars "P1 TRANSFER") =
      patternMatch roSub cfgC7w2 (chars "P1 TRANSFER") :=
  ⟨(c7_theorem roSub cfgC7w (chars "P1 TRANSFER") (by decide)).2.1
      ⟨(chars "transfer", ⟨[chars "P1", chars "BAD("], 60, chars "Transfers"⟩),
        by decide, by decide⟩,
   (c7_theorem roSub cfgC7w (chars "P1 TRANSFER") (by decide)).2.2 cfgC7w2
      (chars "BAD(") (chars "transfer") (chars "Transfers") [] [] [chars "P1"] [] 60
      roSub_bad_invalid (by decide) (by decide)⟩

/-! ## Claim C8 -/

theorem lpKeyGE_total (a b : LearnedPattern) : lpKeyGE a b ∨ lpKeyGE b a := by
  unfold lpKeyGE
  rcases lt_trichotomy a.confidence b.confidence with h | h | h
  · exact Or.inr (Or.inl h)
  · rcases le_total b.count a.count with hc | hc
    · exact Or.inl (Or.inr ⟨h, hc⟩)
    · exact Or.inr (Or.inr ⟨h.symm, hc⟩)
  · exact Or.inl (Or.inl h)

theorem lpKeyGE_trans {a b c : LearnedPattern} (h1 : lpKeyGE a b) (h2 : lpKeyGE b c) :
    lpKeyGE a c := by
  unfold lpKeyGE at h1 h2 ⊢
  rcases h1 with h1 | ⟨h1e, h1c⟩ <;> rcases h2 with h2 | ⟨h2e, h2c⟩
  · exact Or.inl (lt_trans h2 h1)
  · exact Or.inl (h2e ▸ h1)
  · exact Or.inl (by rw [h1e]; exact h2)
  · exact Or.inr ⟨h1e.trans h2e, le_trans h2c h1c⟩

theorem lpInsert_perm (x : LearnedPattern) (l : List LearnedPattern) :
    List.Perm (lpInsert x l) (x :: l) := by
  induction l with
  | nil => exact List.Perm.refl _
  | cons y ys ih =>
    unfold lpInsert
    by_cases h : lpKeyGE y x
    · rw [if_pos h]
      exact List.Perm.trans (List.Perm.cons y ih) (List.Perm.swap x y ys)
    · rw [if_neg h]

theorem lpSortDesc_perm (l : List LearnedPattern) : List.Perm (lpSortDesc l) l := by
  induction l with
  | nil => exact List.Perm.refl _
  | cons x xs ih =>
    exact List.Perm.trans (lpInsert_perm x (lpSortDesc xs)) (List.Perm.cons x ih)

theorem lpInsert_sorted {x : LearnedPattern} {l : List LearnedPattern}
    (hs : List.Pairwise lpKeyGE l) : List.Pairwise lpKeyGE (lpInsert x l) := by
  induction l with
  | nil => exact List.pairwise_singleton _ _
  | cons y ys ih =>
    rcases List.pairwise_cons.mp hs with ⟨hy, hys⟩
    unfold lpInsert
    by_cases h : lpKeyGE y x
    · rw [if_pos h]
      refine List.pairwise_cons.mpr ⟨?_, ih hys⟩
      intro z hz
      rcases List.mem_cons.mp ((lpInsert_perm x ys).mem_iff.mp hz) with heq | hm
      · subst heq
        exact h
      · exact hy z hm
    · rw [if_neg h]
      have hxy : lpKeyGE x y := by
        rcases lpKeyGE_total y x with hyx | hxy
        · exact absurd hyx h
        · exact hxy
      refine List.pairwise_cons.mpr ⟨?_, hs⟩
      intro z hz
      rcases List.mem_cons.mp hz with heq | hm
      · subst heq
        exact hxy
      · exact lpKeyGE_trans hxy (hy z hm)

theorem lpSortDesc_sorted (l : List LearnedPattern) :
    List.Pairwise lpKeyGE (lpSortDesc l) := by
  induction l with
  | nil => exact List.Pairwise.nil
  | cons x xs ih => exact lpInsert_sorted ih

theorem learnedGet_set_same (tbl : List (List Char × List LearnedPattern))
    (k : List Char) (v : List LearnedPattern) : learnedGet (learnedSet tbl k v) k = v := by
  unfold learnedGet learnedSet
  rw [List.find?_cons_of_pos _ (by simp)]

theorem find?_filter_ne (k k' : List Char) (h : k' ≠ k)
    (tbl : List (List Char × List LearnedPattern)) :
    List.find? (fun p => p.1 = k') (tbl.filter fun p => p.1 ≠ k) =
      List.find? (fun p => p.1 = k') tbl := by
  induction tbl with
  | nil => rfl
  | cons q tq ih =>
    by_cases hq : q.1 = k'
    · have hqk : q.1 ≠ k := by rw [hq]; exact h
      rw [List.filter_cons, if_pos (by simpa using hqk)]
      rw [List.find?_cons_of_pos _ (by simpa using hq),
        List.find?_cons_of_pos _ (by simpa using hq)]
    · by_cases hk : q.1 = k
      · rw [List.filter_cons, if_neg (by simpa using hk)]
        rw [ih, List.find?_cons_of_neg _ (by simpa using hq)]
      · rw [List.filter_cons, if_pos (by simpa using hk)]
        rw [List.find?_cons_of_neg _ (by simpa using hq),
          List.find?_cons_of_neg _ (by simpa using hq), ih]

theorem learnedGet_set_other (tbl : List (List Char × List LearnedPattern))
    (k k' : List Char) (v : List LearnedPattern) (h : k' ≠ k) :
    learnedGet (learnedSet tbl k v) k' = learnedGet tbl k' := by
  unfold learnedGet learnedSet
  rw [List.find?_cons_of_neg _ (by simpa using fun he => h he.symm), find?_filter_ne k k' h]

/-- Claim C8 (confirmed): `learn_from_correction` is a no-op when learning
is disabled or the confidence is below the learning minimum; otherwise it
touches only the corrected category's bucket, appends
`{normalized description, confidence, count 1}` when the capped size
allows, keeps the bucket within `max_learned_patterns`, and what it retains
is a top-segment of the appended bucket under the
`(confidence desc, count desc)` ranking: every kept entry ranks at least as
high as every dropped one. -/
theorem c8_theorem (cfg : MatcherConfig) (st : MatcherState) (d t : List Char) (c : ℚ) :
    (cfg.track_success = false → learnFromCorrection cfg st d t c = st) ∧
    (c < cfg.min_confidence_for_learning → learnFromCorrection cfg st d t c = st) ∧
    (cfg.track_success = true → cfg.min_confidence_for_learning ≤ c →
      (∀ t', t' ≠ t → learnedGet (learnFromCorrection cfg st d t c).learned t' =
        learnedGet st.learned t') ∧
      (learnedGet (learnFromCorrection cfg st d t c).learned t).length ≤
        cfg.max_learned_patterns ∧
      ((learnedGet st.learned t).length + 1 ≤ cfg.max_learned_patterns →
        learnedGet (learnFromCorrection cfg st d t c).learned t =
          learnedGet st.learned t ++ [newLearned d c]) ∧
      ∃ dropped,
        List.Perm (learnedGet (learnFromCorrection cfg st d t c).learned t ++ dropped)
          (learnedGet st.learned t ++ [newLearned d c]) ∧
        ∀ x ∈ learnedGet (learnFromCorrection cfg st d t c).learned t,
          ∀ y ∈ dropped, lpKeyGE x y) := by
  refine ⟨?_, ?_, ?_⟩
  · intro h
    unfold learnFromCorrection
    rw [if_pos h]
  · intro h
    unfold learnFromCorrection
    by_cases ht : cfg.track_success = false
    · rw [if_pos ht]
    · rw [if_neg ht, if_pos h]
  · intro htrack hc
    have hres : (learnFromCorrection cfg st d t c).learned =
        learnedSet st.learned t
          (if cfg.max_learned_patterns <
              (learnedGet st.learned t ++ [newLearned d c]).length then
            (lpSortDesc (learnedGet st.learned t ++
              [newLearned d c])).take cfg.max_learned_patterns
          else learnedGet st.learned t ++ [newLearned d c]) := by
      unfold learnFromCorrection
      rw [if_neg (by intro hf; rw [htrack] at hf; cases hf), if_neg (not_lt.mpr hc)]
      rfl
    rw [hres]
    have hlenB : (learnedGet st.learned t ++ [newLearned d c]).length =
        (learnedGet st.learned t).length + 1 := by
      rw [List.length_append]
      rfl
    by_cases hover : cfg.max_learned_patterns <
        (learnedGet st.learned t ++ [newLearned d c]).length
    · rw [if_pos hover]
      refine ⟨?_, ?_, ?_, ?_⟩
      · intro t' ht'
        exact learnedGet_set_other st.learned t t' _ ht'
      · rw [learnedGet_set_same, List.length_take]
        exact min_le_left _ _
      · intro hfit
        rw [hlenB] at hover
        exact absurd hfit (not_le.mpr hover)
      · rw [learnedGet_set_same]
        refine ⟨(lpSortDesc (learnedGet st.learned t ++
            [newLearned d c])).drop cfg.max_learned_patterns, ?_, ?_⟩
        · rw [List.take_append_drop]
          exact lpSortDesc_perm _
        · have hpw := lpSortDesc_sorted (learnedGet st.learned t ++ [newLearned d c])
          rw [← List.take_append_drop cfg.max_learned_patterns
            (lpSortDesc (learnedGet st.learned t ++ [newLearned d c]))] at hpw
          exact (List.pairwise_append.mp hpw).2.2
    · rw [if_neg hover]
      refine ⟨?_, ?_, ?_, ?_⟩
      · intro t' ht'
        exact learnedGet_set_other st.learned t t' _ ht'
      · rw [learnedGet_set_same, hlenB]
        rw [hlenB] at hover
        exact not_lt.mp hover
      · intro _
        exact learnedGet_set_same _ _ _
      · rw [learnedGet_set_same]
        refine ⟨[], ?_, ?_⟩
        · rw [List.append_nil]
        · intro x _ y hy
          cases hy

/-- Witness for `c8_theorem`: with learning off the call is a no-op; with
learning on but confidence 10 below the minimum 80 it is a no-op; with
confidence 90 the `Food` bucket (already at the cap 2) stays within the
cap. -/
theorem c8_witness :
    learnFromCorrection baseCfg stC8 (chars "AGRO") (chars "Food") 90 = stC8 ∧
    learnFromCorrection cfgC8on stC8 (chars "AGRO") (chars "Food") 10 = stC8 ∧
    (learnedGet (learnFromCorrection cfgC8on stC8 (chars "AGRO") (chars "Food") 90).learned
      (chars "Food")).length ≤ 2 :=
  ⟨(c8_theorem baseCfg stC8 (chars "AGRO") (chars "Food") 90).1 rfl,
   (c8_theorem cfgC8on stC8 (chars "AGRO") (chars "Food") 10).2.1 (by decide),
   ((c8_theorem cfgC8on stC8 (chars "AGRO") (chars "Food") 90).2.2 rfl (by decide)).2.1⟩

/-! ## Claim C9 -/

theorem cacheGet_some {cache : List (List Char × Option MatchResult)} {k : List Char}
    {v : Option MatchResult} (h : cacheGet cache k = some v) :
    ∃ p ∈ cache, p.1 = k ∧ p.2 = v := by
  unfold cacheGet at h
  cases hf : List.find? (fun p => p.1 = k) cache with
  | none =>
    rw [hf] at h
    cases h
  | some p =>
    rw [hf] at h
    refine ⟨p, List.mem_of_find?_eq_some hf, ?_, Option.some_inj.mp h⟩
    have hp := List.find?_some hf
    exact of_decide_eq_true hp

theorem exactMatchS_spec (cfg : MatcherConfig) (st : MatcherState) (d : List Char)
    (h : CacheOK cfg st) :
    (exactMatchS cfg st d).1 = exactMatch cfg d ∧ CacheOK cfg (exactMatchS cfg st d).2 := by
  simp only [exactMatchS]
  cases hg : cacheGet st.exactCache (normalizeDescription d) with
  | some v =>
    rcases cacheGet_some hg with ⟨p, hp, hk, hv⟩
    refine ⟨?_, h⟩
    show v = exactMatch cfg d
    rw [← hv, h.1 p hp, hk]
    rfl
  | none =>
    refine ⟨rfl, ?_, h.2⟩
    intro p hp
    rcases List.mem_cons.mp hp with heq | hm
    · subst heq
      rfl
    · exact h.1 p hm

theorem fuzzyMatchS_spec (cfg : MatcherConfig) (st : MatcherState) (d : List Char)
    (h : CacheOK cfg st) :
    (fuzzyMatchS cfg st d).1 = fuzzyMatch cfg d ∧ CacheOK cfg (fuzzyMatchS cfg st d).2 := by
  simp only [fuzzyMatchS]
  cases hg : cacheGet st.fuzzyCache (normalizeDescription d) with
  | some v =>
    rcases cacheGet_some hg with ⟨p, hp, hk, hv⟩
    refine ⟨?_, h⟩
    show v = fuzzyMatch cfg d
    rw [← hv, h.2 p hp, hk]
    rfl
  | none =>
    refine ⟨rfl, h.1, ?_⟩
    intro p hp
    rcases List.mem_cons.mp hp with heq | hm
    · subst heq
      rfl
    · exact h.2 p hm

theorem classifyOperationS_exact (ro : RegexOracle) (cfg : MatcherConfig)
    (st : MatcherState) (d : List Char) (r : MatchResult) (hd : d ≠ [])
    (hx1 : (exactMatchS cfg st d).1 = some r) :
    classifyOperationS ro cfg st d = (some r, (exactMatchS cfg st d).2) := by
  unfold classifyOperationS
  rw [if_neg hd, show exactMatchS cfg st d = (some r, (exactMatchS cfg st d).2) from
    by rw [← hx1]]

theorem classifyOperationS_layers (ro : RegexOracle) (cfg : MatcherConfig)
    (st : MatcherState) (d : List Char) (hd : d ≠ [])
    (hx1 : (exactMatchS cfg st d).1 = none) :
    classifyOperationS ro cfg st d =
      (if autoOk (fuzzyMatchS cfg (exactMatchS cfg st d).2 d).1 cfg.fuzzy_match_auto = true
       then ((fuzzyMatchS cfg (exactMatchS cfg st d).2 d).1,
         (fuzzyMatchS cfg (exactMatchS cfg st d).2 d).2)
       else if autoOk (keywordMatch cfg d) cfg.keyword_match_auto = true
       then (keywordMatch cfg d, (fuzzyMatchS cfg (exactMatchS cfg st d).2 d).2)
       else if autoOk (patternMatch ro cfg d) cfg.pattern_match_auto = true
       then (patternMatch ro cfg d, (fuzzyMatchS cfg (exactMatchS cfg st d).2 d).2)
       else (bestCandidate
               (fuzzyMatchS cfg (fuzzyMatchS cfg (exactMatchS cfg st d).2 d).2 d).1
               (keywordMatch cfg d) (patternMatch ro cfg d),
             (fuzzyMatchS cfg (fuzzyMatchS cfg (exactMatchS cfg st d).2 d).2 d).2)) := by
  unfold classifyOperationS
  rw [if_neg hd, show exactMatchS cfg st d = (none, (exactMatchS cfg st d).2) from
    by rw [← hx1]]

theorem classifyOperationS_spec (ro : RegexOracle) (cfg : MatcherConfig)
    (st : MatcherState) (d : List Char) (h : CacheOK cfg st) :
    (classifyOperationS ro cfg st d).1 = classifyOperation ro cfg d ∧
    CacheOK cfg (classifyOperationS ro cfg st d).2 := by
  by_cases hd : d = []
  · subst hd
    exact ⟨rfl, h⟩
  · obtain ⟨hx1, hx2⟩ := exactMatchS_spec cfg st d h
    cases hex : exactMatch cfg d with
    | some r =>
      rw [classifyOperationS_exact ro cfg st d r hd (by rw [hx1, hex])]
      constructor
      · show some r = classifyOperation ro cfg d
        unfold classifyOperation
        rw [if_neg hd, hex]
      · exact hx2
    | none =>
      rw [classifyOperationS_layers ro cfg st d hd (by rw [hx1, hex]),
        classifyOperation_eq_layers ro cfg d hd hex]
      obtain ⟨hf1, hf2⟩ := fuzzyMatchS_spec cfg (exactMatchS cfg st d).2 d hx2
      rw [hf1]
      by_cases hfa : autoOk (fuzzyMatch cfg d) cfg.fuzzy_match_auto = true
      · rw [if_pos hfa, if_pos hfa]
        exact ⟨rfl, hf2⟩
      · rw [if_neg hfa, if_neg hfa]
        by_cases hka : autoOk (keywordMatch cfg d) cfg.keyword_match_auto = true
        · rw [if_pos hka, if_pos hka]
          exact ⟨rfl, hf2⟩
        · rw [if_neg hka, if_neg hka]
          by_cases hpa : autoOk (patternMatch ro cfg d) cfg.pattern_match_auto = true
          · rw [if_pos hpa, if_pos hpa]
            exact ⟨rfl, hf2⟩
          · rw [if_neg hpa, if_neg hpa]
            obtain ⟨hg1, hg2⟩ :=
              fuzzyMatchS_spec cfg (fuzzyMatchS cfg (exactMatchS cfg st d).2 d).2 d hf2
            rw [hg1]
            exact ⟨rfl, hg2⟩

/-- Claim C9 (confirmed): in a fixed configuration, classification through
the caches equals the cache-free classification whenever every cache entry
holds what the layer would compute (an invariant that holds for the fresh
matcher, is preserved by classification and restored by `clear_caches`);
hence two calls on the same description return identical results — same
category, confidence and method — whether the caches are kept, freshly
populated or cleared in between. -/
theorem c9_theorem (ro : RegexOracle) (cfg : MatcherConfig) (d : List Char)
    (st : MatcherState) (h : CacheOK cfg st) :
    (classifyOperationS ro cfg st d).1 = classifyOperation ro cfg d ∧
    CacheOK cfg (classifyOperationS ro cfg st d).2 ∧
    (classifyOperationS ro cfg (classifyOperationS ro cfg st d).2 d).1 =
      (classifyOperationS ro cfg st d).1 ∧
    (classifyOperationS ro cfg (clearCaches (classifyOperationS ro cfg st d).2) d).1 =
      (classifyOperationS ro cfg st d).1 ∧
    CacheOK cfg initialState ∧
    (∀ st2, CacheOK cfg st2 → CacheOK cfg (clearCaches st2)) := by
  have hclear : ∀ st2 : MatcherState, CacheOK cfg (clearCaches st2) := fun st2 =>
    ⟨fun p hp => absurd hp (List.not_mem_nil p), fun p hp => absurd hp (List.not_mem_nil p)⟩
  obtain ⟨h1, h2⟩ := classifyOperationS_spec ro cfg st d h
  obtain ⟨h3, _⟩ := classifyOperationS_spec ro cfg (classifyOperationS ro cfg st d).2 d h2
  obtain ⟨h4, _⟩ := classifyOperationS_spec ro cfg
    (clearCaches (classifyOperationS ro cfg st d).2) d (hclear _)
  refine ⟨h1, h2, ?_, ?_, ?_, fun st2 _ => hclear st2⟩
  · rw [h3, h1]
  · rw [h4, h1]
  · exact ⟨fun p hp => absurd hp (List.not_mem_nil p),
      fun p hp => absurd hp (List.not_mem_nil p)⟩

/-- Witness for `c9_theorem`: on a fresh matcher the cached classification
of `AGROBAZAR` equals the cache-free one, and an immediate second call
(now served from the exact-match cache) returns the same result. -/
theorem c9_witness :
    (classifyOperationS roNone cfgC9w initialState (chars "AGROBAZAR")).1 =
      classifyOperation roNone cfgC9w (chars "AGROBAZAR") ∧
    (classifyOperationS roNone cfgC9w
        (classifyOperationS roNone cfgC9w initialState (chars "AGROBAZAR")).2
        (chars "AGROBAZAR")).1 =
      (classifyOperationS roNone cfgC9w initialState (chars "AGROBAZAR")).1 :=
  have hok : CacheOK cfgC9w initialState :=
    ⟨fun p hp => absurd hp (List.not_mem_nil p), fun p hp => absurd hp (List.not_mem_nil p)⟩
  ⟨(c9_theorem roNone cfgC9w (chars "AGROBAZAR") initialState hok).1,
   (c9_theorem roNone cfgC9w (chars "AGROBAZAR") initialState hok).2.2.1⟩

/-! ## Claim C4 -/

theorem map_if_dot_id (l : List Char) : (l.map fun c => if c = '.' then '.' else c) = l := by
  induction l with
  | nil => rfl
  | cons a as ih =>
    simp only [List.map_cons, ih]
    by_cases h : a = '.'
    · rw [if_pos h, h]
    · rw [if_neg h]

theorem normalizeNumber_refines_spec (s : List Char) :
    normalizeNumber s = normalizeNumberSpec s := by
  simp only [normalizeNumber, normalizeNumberSpec]
  split_ifs with h0 h1 h2 h3 <;> try rfl
  · show pyFloat _ = pyFloat ((List.filter _ _).map fun c => if c = '.' then '.' else c)
    rw [map_if_dot_id]
    rfl

/-- Claim C4 (confirmed): `_normalize_number` realizes the spec's
separator rule — stated by `normalizeNumberSpec`, which picks the decimal
separator (the later of `.` and `,` when both appear, a lone `,` otherwise,
none when only `.` or neither appears), discards the other separator and
parses — and returns `None` on empty input and, via the absorbed `float()`
failure, on any unparsable remainder; the spec's examples `1.234,56`,
`1,234.56` and `1 234,56` all normalize to 1234.56. -/
theorem c4_theorem :
    (∀ s, normalizeNumber s = normalizeNumberSpec s) ∧
    (∀ s, stripPy s = [] → normalizeNumber s = none) ∧
    normalizeNumber (chars "1.234,56") = some (1234.56 : ℚ) ∧
    normalizeNumber (chars "1,234.56") = some (1234.56 : ℚ) ∧
    normalizeNumber (chars "1 234,56") = some (1234.56 : ℚ) ∧
    normalizeNumber (chars "") = none := by
  have hval : (1234.56 : ℚ) = mkRat 123456 100 := by norm_num
  refine ⟨normalizeNumber_refines_spec, ?_, ?_, ?_, ?_, by decide⟩
  · intro s h
    simp only [normalizeNumber]
    rw [if_pos h]
  · rw [hval]
    decide
  · rw [hval]
    decide
  · rw [hval]
    decide

/-- Witness for `c4_theorem`: the refinement instantiated at a lone-comma
input, and the whitespace-only input normalizing to `None`. -/
theorem c4_witness :
    normalizeNumber (chars "12,5") = normalizeNumberSpec (chars "12,5") ∧
    normalizeNumber (chars "   ") = none :=
  ⟨c4_theorem.1 (chars "12,5"), c4_theorem.2.1 (chars "   ") (by decide)⟩

/-! ## Claim C5 -/

theorem getCell_mem {row : List (Option (List Char))} {idx : Option Nat} {s : List Char}
    (h : getCell row idx = some s) : some s ∈ row := by
  unfold getCell at h
  cases idx with
  | none => cases h
  | some i =>
    have h' : (if i < row.length then row.getD i none else none) = some s := h
    by_cases hi : i < row.length
    · rw [if_pos hi] at h'
      rw [← h', List.getD_eq_getElem row none hi]
      exact List.getElem_mem hi
    · rw [if_neg hi] at h'
      cases h'

/-- Claim C5 as frozen is refuted by an empty-string description cell: in
the row `["", "1,00"]` the normalized description is `""` — non-null — and
the amount parses, yet no `Operation` is emitted, because the code requires
a *truthy* (non-empty) description, not merely a non-null one. -/
theorem c5_counterexample :
    normalizeCell (getCell rowC5ce cmC5ce.description) = some [] ∧
    normalizeCell (getCell rowC5ce cmC5ce.description) ≠ none ∧
    parseAmount (getCell rowC5ce cmC5ce.amount) ≠ none ∧
    processRow cmC5ce rowC5ce = none ∧
    processTableRows cmC5ce [rowC5ce] = [] := by
  with_unfolding_all decide

/-- Claim C5 (amended: the normalized description cell must be non-null
**and non-empty**, which the counterexample forces): a data row emits an
`Operation` exactly when its normalized description is a non-empty string
and its amount parses; the emitted record carries exactly those cell
values; and a dropped row leaves no trace while extraction of the
remaining rows continues. -/
theorem c5_theorem (cm : ColMap) (row : List (Option (List Char)))
    (rows : List (List (Option (List Char)))) :
    ((∃ op, processRow cm row = some op) ↔
      (∃ d, normalizeCell (getCell row cm.description) = some d ∧ d ≠ [] ∧
        (parseAmount (getCell row cm.amount)).isSome = true)) ∧
    (∀ op, processRow cm row = some op →
      op.description = normalizeCell (getCell row cm.description) ∧
      op.amount_lei = parseAmount (getCell row cm.amount) ∧
      op.transaction_date = normalizeCell (getCell row cm.date) ∧
      op.processed_date = normalizeCell (getCell row cm.processed)) ∧
    (processRow cm row = none →
      processTableRows cm (row :: rows) = processTableRows cm rows) ∧
    (∀ op, processRow cm row = some op →
      processTableRows cm (row :: rows) = op :: processTableRows cm rows) := by
  have hemit : ∀ op, processRow cm row = some op →
      ∃ d a, normalizeCell (getCell row cm.description) = some d ∧ d ≠ [] ∧
        parseAmount (getCell row cm.amount) = some a ∧
        op = ⟨normalizeCell (getCell row cm.date), normalizeCell (getCell row cm.processed),
          some d, some a⟩ := by
    intro op hop
    simp only [processRow] at hop
    by_cases ht : rowHasTruthyCell row = false
    · rw [if_pos ht] at hop
      cases hop
    · rw [if_neg ht] at hop
      cases hdesc : normalizeCell (getCell row cm.description) with
      | none =>
        rw [hdesc] at hop
        cases hamt : parseAmount (getCell row cm.amount) with
        | none => rw [hamt] at hop; cases hop
        | some a => rw [hamt] at hop; cases hop
      | some d =>
        rw [hdesc] at hop
        cases hamt : parseAmount (getCell row cm.amount) with
        | none => rw [hamt] at hop; cases hop
        | some a =>
          rw [hamt] at hop
          have hop2 : (if d ≠ [] then
              some (⟨normalizeCell (getCell row cm.date),
                normalizeCell (getCell row cm.processed), some d, some a⟩ : Operation)
            else none) = some op := hop
          by_cases hd : d ≠ []
          · rw [if_pos hd] at hop2
            exact ⟨d, a, rfl, hd, rfl, (Option.some_inj.mp hop2).symm⟩
          · rw [if_neg hd] at hop2
            cases hop2
  refine ⟨⟨?_, ?_⟩, ?_, ?_, ?_⟩
  · rintro ⟨op, hop⟩
    rcases hemit op hop with ⟨d, a, hd, hdne, ha, _⟩
    exact ⟨d, hd, hdne, by rw [ha]; rfl⟩
  · rintro ⟨d, hd, hdne, hamt⟩
    have hcell : ∃ s, getCell row cm.description = some s := by
      cases hcel : getCell row cm.description with
      | none =>
        rw [hcel] at hd
        simp [normalizeCell] at hd
      | some s => exact ⟨s, rfl⟩
    obtain ⟨s, hs⟩ := hcell
    have hsd : stripPy (s.map fun ch => if ch = '\n' then ' ' else ch) = d := by
      rw [hs] at hd
      exact Option.some_inj.mp hd
    have hsne : s ≠ [] := by
      intro he
      subst he
      rw [show stripPy (List.map (fun ch => if ch = '\n' then ' ' else ch) []) = []
        from rfl] at hsd
      exact hdne hsd.symm
    have htr : rowHasTruthyCell row = true := by
      unfold rowHasTruthyCell
      rw [List.any_eq_true]
      exact ⟨some s, getCell_mem hs, decide_eq_true hsne⟩
    obtain ⟨a, ha⟩ := Option.isSome_iff_exists.mp hamt
    refine ⟨⟨normalizeCell (getCell row cm.date), normalizeCell (getCell row cm.processed),
      some d, some a⟩, ?_⟩
    simp only [processRow]
    rw [if_neg (fun hf => absurd (htr.symm.trans hf) (by decide)), hd, ha]
    exact if_pos hdne
  · intro op hop
    rcases hemit op hop with ⟨d, a, hd, _, ha, hop2⟩
    subst hop2
    exact ⟨hd.symm, ha.symm, rfl, rfl⟩
  · intro h
    simp only [processTableRows, List.filterMap_cons, h]
  · intro op h
    simp only [processTableRows, List.filterMap_cons, h]

/-- Witness for `c5_theorem`: the spec §8.6 row emits an `Operation`, and a
fully empty row before it is dropped with extraction continuing. -/
theorem c5_witness :
    (∃ op, processRow cmC5w rowC5w = some op) ∧
    processTableRows cmC5w ([] :: [rowC5w]) = processTableRows cmC5w [rowC5w] :=
  ⟨(c5_theorem cmC5w rowC5w []).1.mpr
      ⟨chars "MAGAZIN ABC", by decide, by decide, by decide⟩,
   (c5_theorem cmC5w [] [rowC5w]).2.2.1 (by decide)⟩
